import Mathlib

/-!
# Vector-sum benchmark: strategies, harness and workload generator

A shallow embedding of `vector_sum.h`, `vector_sum.cpp`, `executor.h` and
`data_generator.h`.

* `std::vector` is a `List`; an output parameter passed by reference is threaded
  through as an argument and returned.
* `int8_t` is the subtype of `Int` between -128 and 127.  `int` and `int64_t`
  arithmetic is `Int` arithmetic followed by an explicit two's-complement wrap
  (`toInt32`, `toInt64`).
* A counter or accumulator has the type the source gives it: `std::accumulate(..., 0)`
  and `std::iota(..., 0)` work in `int`, the type of the literal `0`.
* An OpenMP work-sharing loop whose iterations write disjoint slots is a fold
  of the loop body over the iterations in the order the runtime happens to
  complete them; that order is a parameter (`Schedule`).
* An OpenMP reduction gives every worker a private accumulator started at the
  identity, lets it fold the iterations of its share, and merges the private
  accumulators into the original variable in an order chosen by the runtime.
-/

namespace VectorSum

/-! ## Machine integers -/

/-- Signed 8-bit integer: the element type of the input vectors. -/
abbrev int8_t : Type := { x : Int // -128 ≤ x ∧ x ≤ 127 }

/-- Two's-complement wrap of an integer into `int` (32 bit). -/
def toInt32 (x : Int) : Int := (x + 2 ^ 31) % 2 ^ 32 - 2 ^ 31

/-- Two's-complement wrap of an integer into `int64_t`. -/
def toInt64 (x : Int) : Int := (x + 2 ^ 63) % 2 ^ 64 - 2 ^ 63

/-- Largest value of `size_t`: `std::numeric_limits<size_t>::max()`. -/
def SIZE_MAX : Nat := 2 ^ 64 - 1

/-! ## Type aliases of `vector_sum.h` -/

abbrev InputVectors : Type := List (List int8_t)

abbrev OutputVector : Type := List Int

/-- Element `data[i]`; reading past the end (undefined in C++) yields the empty vector. -/
def vectorAt (data : InputVectors) (i : Nat) : List int8_t := data.getD i []

/-! ## `vector_sum_sequential` -/

/-- The inner loop of `vector_sum_sequential`: `int64_t sum = 0; for (auto n : v) sum += n;`. -/
def sum_int64 (v : List int8_t) : Int :=
  v.foldl (fun sum n => toInt64 (sum + n.val)) 0

/-- Sequential implementation: `for i in 0..data.size(): solution[i] = sum of data[i]`.
A store past the end of `solution` (undefined in C++) leaves it unchanged. -/
def vector_sum_sequential (data : InputVectors) (solution : OutputVector) (_min_vector_size : Nat) :
    OutputVector :=
  (List.range data.length).foldl (fun sol i => sol.set i (sum_int64 (vectorAt data i))) solution

/-! ## Ground truth, in the words of the specification -/

/-- Exact arithmetic sum of the elements of one vector. -/
def exact_sum (v : List int8_t) : Int := (v.map Subtype.val).sum

/-- Ground truth of a dataset: one exact sum per vector. -/
def ground_truth (data : InputVectors) : OutputVector := data.map exact_sum

/-- The exact sum of one vector wrapped to 32 bits and widened again. -/
def wrapped_sum (v : List int8_t) : Int := toInt32 (exact_sum v)

/-! ## Calls that may raise

A C++ call is modelled by its outcome (`Except.ok ()` for a normal return,
`Except.error e` for the exception `e`) paired with the final state of the
parameters it received by non-const reference. -/

/-- Exceptions: `std::invalid_argument` and any other thrown object, with its message. -/
inductive Thrown where
  | invalid_argument (what : String)
  | other (what : String)
deriving DecidableEq, Repr

/-- Strategy signature `void (*)(const InputVectors&, OutputVector&, size_t)`:
the outcome of the call and the final content of `solution`. -/
abbrev SolutionFn : Type := InputVectors → OutputVector → Nat → Except Thrown Unit × OutputVector

/-- A strategy of this repository seen as a `SolutionFn`: it returns normally. -/
def returns (strategy : InputVectors → OutputVector → Nat → OutputVector) : SolutionFn :=
  fun data solution min_vector_size => (Except.ok (), strategy data solution min_vector_size)

/-! ## OpenMP runtime decisions -/

/-- Order in which the `n` iterations of a work-sharing loop are completed. Every
static or dynamic distribution of the iterations over threads, with any
interleaving of the threads, is one such order. -/
structure Schedule (n : Nat) where
  order : List Nat
  perm : order.Perm (List.range n)

/-- The order of a single thread. -/
def Schedule.inOrder (n : Nat) : Schedule n := ⟨List.range n, List.Perm.refl _⟩

/-- The order of a team that completes the iterations last to first. -/
def Schedule.backwards (n : Nat) : Schedule n := ⟨(List.range n).reverse, List.reverse_perm _⟩

/-- Team executing one reduction region: its size, the worker each iteration is
given to (taken modulo the size; used when the loop has no schedule clause) and
the order in which the private copies are merged into the original variable. -/
structure Team where
  workers : Nat
  workers_pos : 0 < workers
  assign : Nat → Nat
  merge : Schedule workers

/-- A team of one thread. -/
def Team.single : Team := ⟨1, Nat.one_pos, fun _ => 0, Schedule.inOrder 1⟩

/-- Decisions of the OpenMP runtime and of `std::shuffle` during one call. -/
structure Runtime where
  /-- Value of `omp_get_max_threads()`. -/
  max_threads : Nat
  /-- Completion order of a work-sharing loop with `n` iterations. -/
  schedule : (n : Nat) → Schedule n
  /-- Team of the reduction region in `size_of_smallest_vector`. -/
  reduction_team : Team
  /-- Team of the nested reduction region opened by outer iteration `i`. -/
  inner_team : Nat → Team
  /-- Rearrangement applied by `std::shuffle` to a range of `n` entries: entry `p` of
  the result is the entry that stood at position `order[p]`. -/
  shuffled : (n : Nat) → Schedule n

/-- A runtime with one thread and the identity shuffle. -/
def Runtime.serial : Runtime :=
  ⟨1, Schedule.inOrder, Team.single, fun _ => Team.single, Schedule.inOrder⟩

/-- Loop `#pragma omp parallel for` over `0..n-1`: the bodies take effect in the
order of the schedule. -/
def omp_parallel_for (n : Nat) (sched : Schedule n) (body : Nat → OutputVector → OutputVector)
    (solution : OutputVector) : OutputVector :=
  sched.order.foldl (fun sol i => body i sol) solution

/-- Iterations of the loop over `xs` executed by worker `k`, in loop order. -/
def share {α : Type} (assign : Nat → Nat) (workers k : Nat) (xs : List α) : List α :=
  (xs.enum.filter (fun p => assign p.1 % workers = k)).map Prod.snd

/-- Loop `#pragma omp parallel for reduction(combine : x)` over `xs`: each worker
folds `body` over its share starting from the identity of `combine`, then the
private copies are merged into the original value of `x`. -/
def omp_reduction {α β : Type} (combine : β → β → β) (identity : β) (body : β → α → β)
    (assign : Nat → Nat) (team : Team) (original : β) (xs : List α) : β :=
  team.merge.order.foldl
    (fun x k => combine x ((share assign team.workers k xs).foldl body identity)) original

/-! ## `vector_sum.cpp` -/

/-- Call `std::accumulate(v.begin(), v.end(), 0)`: the accumulator has the type of the
initial value `0`, which is `int`. -/
def accumulate_int (v : List int8_t) : Int :=
  v.foldl (fun acc x => toInt32 (acc + x.val)) 0

/-- Inner loop of `vector_sum_omp_per_vector`: `int local_sum = 0;` reduced with `+`
under `schedule(static, 256)`, which deals chunks of 256 iterations round-robin. -/
def inner_reduction (team : Team) (v : List int8_t) : Int :=
  omp_reduction (fun a b => toInt32 (a + b)) 0 (fun local_sum x => toInt32 (local_sum + x.val))
    (fun j => j / 256) team 0 v

/-- Parallel sum computation within each vector. -/
def vector_sum_omp_per_vector (rt : Runtime) (data : InputVectors) (solution : OutputVector)
    (min_vector_size : Nat) : OutputVector :=
  omp_parallel_for data.length (rt.schedule data.length)
    (fun i sol =>
      if (vectorAt data i).length ≥ min_vector_size then
        sol.set i (inner_reduction (rt.inner_team i) (vectorAt data i))
      else
        sol.set i (accumulate_int (vectorAt data i)))
    solution

/-- Parallelize across vectors using static scheduling. -/
def vector_sum_omp_static (rt : Runtime) (data : InputVectors) (solution : OutputVector)
    (_min_vector_size : Nat) : OutputVector :=
  omp_parallel_for data.length (rt.schedule data.length)
    (fun i sol => sol.set i (accumulate_int (vectorAt data i))) solution

/-- Parallelize across vectors using dynamic scheduling. -/
def vector_sum_omp_dynamic (rt : Runtime) (data : InputVectors) (solution : OutputVector)
    (_min_vector_size : Nat) : OutputVector :=
  omp_parallel_for data.length (rt.schedule data.length)
    (fun i sol => sol.set i (accumulate_int (vectorAt data i))) solution

/-- Conversion of an `int` value to `size_t`: reduction modulo 2^64. -/
def size_t_of_int (value : Int) : Nat := (value % 2 ^ 64).toNat

/-- Call `std::iota(first, last, value)` on a range of `n` entries of type `size_t`:
`*first = value; ++value;` for each entry. The counter `value` has the type of the
initial value, which at the call site is the literal `0`, an `int`. -/
def iota_int : Nat → Int → List Nat
  | 0, _ => []
  | n + 1, value => size_t_of_int value :: iota_int n (toInt32 (value + 1))

/-- Content of `indices` when the loop of `vector_sum_omp_shuffle` starts:
`std::vector<size_t> indices(n)`, filled by `std::iota(..., 0)`, then rearranged by
`std::shuffle`. -/
def shuffle_indices (rt : Runtime) (n : Nat) : List Nat :=
  let indices := iota_int n 0
  (rt.shuffled indices.length).order.map (fun p => indices.getD p 0)

/-- Pre-shuffle the indices, then static scheduling over the shuffled sequence. A read
of `data[i]` past the end yields the empty vector and a store to `solution[i]` past
the end leaves `solution` unchanged (both undefined in C++). -/
def vector_sum_omp_shuffle (rt : Runtime) (data : InputVectors) (solution : OutputVector)
    (_min_vector_size : Nat) : OutputVector :=
  let indices := shuffle_indices rt data.length
  omp_parallel_for indices.length (rt.schedule indices.length)
    (fun idx sol =>
      let i := indices.getD idx 0
      sol.set i (accumulate_int (vectorAt data i)))
    solution

/-! ## `executor.h` -/

/-- Data structure that stores execution times (nanoseconds) of the implementations. -/
structure Results where
  time_ref : Option Int
  time_per_vector : Option Int
  time_shuffle : Option Int
  time_omp_dynamic : Option Int
  time_omp_static : Option Int
deriving DecidableEq, Repr

/-- Body of the loop of `size_of_smallest_vector`. -/
def min_body (min_size : Nat) (vec : List int8_t) : Nat :=
  if vec.length < min_size then vec.length else min_size

/-- The reduction loop of `size_of_smallest_vector` run by a given team with a given
split of the vectors: `size_t min_size = SIZE_MAX;` reduced with `min`. -/
def smallest_parallel (assign : Nat → Nat) (team : Team) (data : InputVectors) : Nat :=
  omp_reduction min SIZE_MAX min_body assign team SIZE_MAX data

/-- Finds the size of the smallest vector in the dataset. The `if` clause decides
whether the region runs with the team of the runtime or with one thread. -/
def size_of_smallest_vector (rt : Runtime) (data : InputVectors) : Nat :=
  if data.length > (rt.max_threads * 1000) % 2 ^ 64 then
    smallest_parallel rt.reduction_team.assign rt.reduction_team data
  else
    smallest_parallel Team.single.assign Team.single data

/-- Sequential path of `size_of_smallest_vector` in the words of the specification:
one left-to-right scan of the dataset on a single thread. -/
def smallest_sequential (data : InputVectors) : Nat := data.foldl min_body SIZE_MAX

/-- Executes a single summing method between the clock readings `begin_time` and
`end_time`. The `try { ... } catch (...) { }` lets both outcomes of the call
continue with the buffer as the call left it. -/
def execute_method (functionPtr : SolutionFn) (correct_solution : OutputVector)
    (data : InputVectors) (minVectorSize : Nat) (begin_time end_time : Int) :
    Except Thrown (Option Int) :=
  let result : OutputVector := List.replicate data.length 0
  let result : OutputVector :=
    match functionPtr data result minVectorSize with
    | (Except.ok (), result) => result
    | (Except.error _, result) => result
  if result = correct_solution then
    Except.ok (some (end_time - begin_time))
  else
    Except.ok none

/-- What surrounds one run of `execute_methods`: the readings of the steady clock,
in the order they are taken, and the runtime decisions in `size_of_smallest_vector`
(index 0) and in the four parallel strategy calls (indices 1 to 4, in call order). -/
structure Env where
  clock : Nat → Int
  omp : Nat → Runtime

/-- Executes all available methods and returns a `Results` with timing data. -/
def execute_methods (env : Env) (solution : OutputVector) (data : InputVectors) :
    Except Thrown Results := do
  let shortestVectorLength := size_of_smallest_vector (env.omp 0) data
  let referenceTime ← execute_method (returns vector_sum_sequential) solution data
    shortestVectorLength (env.clock 0) (env.clock 1)
  let perVectorTime ← execute_method (returns (vector_sum_omp_per_vector (env.omp 1))) solution data
    shortestVectorLength (env.clock 2) (env.clock 3)
  let withShuffleTime ← execute_method (returns (vector_sum_omp_shuffle (env.omp 2))) solution data
    shortestVectorLength (env.clock 4) (env.clock 5)
  let dynamicSchedTime ← execute_method (returns (vector_sum_omp_dynamic (env.omp 3))) solution data
    shortestVectorLength (env.clock 6) (env.clock 7)
  let staticSchedulingTime ← execute_method (returns (vector_sum_omp_static (env.omp 4))) solution
    data shortestVectorLength (env.clock 8) (env.clock 9)
  return ⟨referenceTime, perVectorTime, withShuffleTime, dynamicSchedTime, staticSchedulingTime⟩

/-! ## `data_generator.h` -/

/-- Loop `for (auto& j : v) { int8_t number = dist(gen); j = number; sum += number; }`:
the filled vector, the final `sum` and the final generator state. -/
def fill_vector {σ : Type} (dist : σ → int8_t × σ) : List int8_t → Int → σ → List int8_t × Int × σ
  | [], sum, gen => ([], sum, gen)
  | _ :: rest, sum, gen =>
    let drawn := dist gen
    let number := drawn.1
    let filled := fill_vector dist rest (toInt64 (sum + number.val)) drawn.2
    (number :: filled.1, filled.2.1, filled.2.2)

/-- One iteration of the outer loop of `generate_data` on `(solution, data, gen)`. -/
def generate_step {σ : Type} (dist : σ → int8_t × σ)
    (state : OutputVector × InputVectors × σ) (i : Nat) : OutputVector × InputVectors × σ :=
  let filled := fill_vector dist (vectorAt state.2.1 i) 0 state.2.2
  (state.1.set i filled.2.1, state.2.1.set i filled.1, filled.2.2)

/-- Uniform random data generator. `dist` draws one `int8_t` from the generator state
and `seed` is the state of `std::mt19937{0}`. Returns the outcome of the call and
the final `solution` and `data`. -/
def generate_data {σ : Type} (dist : σ → int8_t × σ) (seed : σ)
    (solution : OutputVector) (data : InputVectors) :
    Except Thrown Unit × OutputVector × InputVectors :=
  if data.length ≠ solution.length then
    (Except.error
      (Thrown.invalid_argument "Solution vector and number of data vectors must match."),
      solution, data)
  else
    let final := (List.range data.length).foldl (generate_step dist) (solution, data, seed)
    (Except.ok (), final.1, final.2.1)

/-! ## `generate_vector_sizes` -/

/-- Values of the C++ type `float`: a finite value (every finite `float` is a rational
number), an infinity, or NaN. -/
inductive float where
  | finite (q : ℚ)
  | inf (negative : Bool)
  | nan
deriving DecidableEq

/-- Nearest integer to a rational, halfway cases away from zero. -/
def round_half_away (q : ℚ) : Int := if 0 ≤ q then ⌊q + 1 / 2⌋ else ⌈q - 1 / 2⌉

/-- Call `std::round(x)`; it returns an infinity or NaN unchanged. -/
def std_round : float → float
  | float.finite q => float.finite (round_half_away q)
  | x => x

/-- Comparison `a < b` of two `float`s; false as soon as one of them is NaN. -/
def float_lt : float → float → Bool
  | float.finite a, float.finite b => decide (a < b)
  | float.finite _, float.inf negative => !negative
  | float.inf negative, float.finite _ => negative
  | float.inf n1, float.inf n2 => n1 && !n2
  | _, _ => false

/-- Call `std::max(a, b)`, which is `(a < b) ? b : a`. -/
def std_max (a b : float) : float := if float_lt a b then b else a

/-- Conversion `static_cast<size_t>(x)`: truncation toward zero. The behaviour is
undefined, modelled by `none`, when the truncated value is not a `size_t` value, and
for an infinity or NaN. -/
def to_size_t : float → Option Nat
  | float.finite q =>
    let truncated : Int := if 0 ≤ q then ⌊q⌋ else ⌈q⌉
    if 0 ≤ truncated ∧ truncated ≤ (SIZE_MAX : Int) then some truncated.toNat else none
  | _ => none

/-- Right-hand side of the store in `generate_vector_sizes`:
`static_cast<size_t>(std::max(std::round(x), 1.0f))`. -/
def stored_size (x : float) : Option Nat := to_size_t (std_max (std_round x) (float.finite 1))

/-- Loop `for (auto it = begin; it != end; ++it) *it = ...` of `generate_vector_sizes`
over the positions of the range, drawing from `d`. -/
def fill_sizes {σ : Type} (d : σ → float × σ) : List Nat → σ → Option (List Nat)
  | [], _ => some []
  | _ :: rest, gen =>
    let drawn := d gen
    match stored_size drawn.1 with
    | none => none
    | some size => (fill_sizes d rest drawn.2).map (fun sizes => size :: sizes)

/-- Generate random vector sizes using a normal distribution. `normal_distribution mean
sigma` draws one `float` from the generator state, `seed` is the state of
`std::mt19937 gen(0)` and `range` holds the prior content of `[begin, end)`. -/
def generate_vector_sizes {σ : Type} (normal_distribution : float → float → σ → float × σ)
    (seed : σ) (range : List Nat) (mean sigma : float) : Option (List Nat) :=
  fill_sizes (normal_distribution mean sigma) range seed

/-! ## Auxiliary notions used in the statements -/

/-- Output buffer of a strategy as `execute_method` sees it: it starts as
`data.size()` zeros and is then whatever the call left in it. -/
def strategy_output (functionPtr : SolutionFn) (data : InputVectors) (minVectorSize : Nat) :
    OutputVector :=
  (functionPtr data (List.replicate data.length 0) minVectorSize).2

/-- A strategy that raises on every invocation, before touching its output. -/
def always_throws : SolutionFn :=
  fun _ solution _ => (Except.error (Thrown.other "strategy failed"), solution)

/-- Largest `int8_t`. -/
def int8_max : int8_t := ⟨127, by decide⟩

/-- A vector of 16909321 elements, all 127: its sum 2147483767 exceeds `INT_MAX`. -/
def long_vector : List int8_t := List.replicate 16909321 int8_max

/-- Slots written by the loop of `vector_sum_omp_shuffle`, in the order the
iterations take effect: iteration `idx` writes slot `indices[idx]`. -/
def shuffle_targets (rt : Runtime) (data : InputVectors) : List Nat :=
  ((rt.schedule (shuffle_indices rt data.length).length).order).map
    (fun idx => (shuffle_indices rt data.length).getD idx 0)

/-- The loop of `vector_sum_omp_per_vector` with the test on `min_vector_size`
removed: every vector goes through the inner reduction. -/
def per_vector_inner_only (rt : Runtime) (data : InputVectors) (solution : OutputVector) :
    OutputVector :=
  omp_parallel_for data.length (rt.schedule data.length)
    (fun i sol => sol.set i (inner_reduction (rt.inner_team i) (vectorAt data i))) solution

/-- Shares of the inner loop of `vector_sum_omp_per_vector` over `v`, worker by worker. -/
def inner_shares (team : Team) (v : List int8_t) : List (List int8_t) :=
  (List.range team.workers).map (fun k => share (fun j => j / 256) team.workers k v)

/-- Dataset of 10000 vectors of length 1, each holding 127. -/
def many_short : InputVectors := List.replicate 10000 [int8_max]

/-- Dataset of 2^31 + 1 = 2147483649 vectors of length 1, each holding 127. -/
def many_vectors : InputVectors := List.replicate 2147483649 [int8_max]

/-! ## Loops that store one value per index -/

theorem length_foldl_set (body : Nat → Int) (order : List Nat) (sol : OutputVector) :
    (order.foldl (fun s i => s.set i (body i)) sol).length = sol.length := by
  induction order generalizing sol with
  | nil => rfl
  | cons a rest ih => simp [List.foldl_cons, ih]

theorem getElem?_foldl_set (body : Nat → Int) (order : List Nat) (sol : OutputVector) (j : Nat) :
    (order.foldl (fun s i => s.set i (body i)) sol)[j]? =
      if j ∈ order ∧ j < sol.length then some (body j) else sol[j]? := by
  induction order generalizing sol with
  | nil => simp
  | cons a rest ih =>
    rw [List.foldl_cons, ih]
    simp only [List.length_set, List.mem_cons]
    by_cases hlt : j < sol.length
    · by_cases hj : j ∈ rest
      · simp [hj, hlt]
      · by_cases hja : j = a
        · subst hja
          simp [hj, hlt]
        · have hne : a ≠ j := fun h => hja h.symm
          simp [hj, hja, List.getElem?_set_ne hne]
    · have h1 : sol[j]? = none := List.getElem?_eq_none (by omega)
      have h2 : (sol.set a (body a))[j]? = none :=
        List.getElem?_eq_none (by simp; omega)
      simp [hlt, h1, h2]

/-- A loop that visits every index below `n = |sol|` (in any order, possibly
repeatedly) and stores `body i` in slot `i` produces the table of `body`. -/
theorem foldl_set_eq_map (body : Nat → Int) (order : List Nat) (sol : OutputVector)
    (hall : ∀ j, j < sol.length → j ∈ order) :
    order.foldl (fun s i => s.set i (body i)) sol = (List.range sol.length).map body := by
  apply List.ext_getElem?
  intro j
  rw [getElem?_foldl_set]
  by_cases hlt : j < sol.length
  · simp [hlt, hall j hlt, List.getElem?_range hlt]
  · have h1 : sol[j]? = none := List.getElem?_eq_none (by omega)
    have h2 : ((List.range sol.length).map body)[j]? = none :=
      List.getElem?_eq_none (by simp; omega)
    simp [hlt, h1, h2]

theorem map_range_vectorAt {β : Type} (f : List int8_t → β) (data : InputVectors) :
    (List.range data.length).map (fun i => f (vectorAt data i)) = data.map f := by
  apply List.ext_getElem?
  intro j
  by_cases hlt : j < data.length
  · simp [List.getElem?_range hlt, vectorAt, List.getD, List.getElem?_eq_getElem hlt, hlt]
  · have h1 : (data.map f)[j]? = none := List.getElem?_eq_none (by simp; omega)
    have h2 : ((List.range data.length).map (fun i => f (vectorAt data i)))[j]? = none :=
      List.getElem?_eq_none (by simp; omega)
    rw [h1, h2]

/-! ## Characterisation of the sequential strategy -/

theorem vector_sum_sequential_eq_map (data : InputVectors) (solution : OutputVector) (m : Nat)
    (hlen : solution.length = data.length) :
    vector_sum_sequential data solution m = data.map sum_int64 := by
  unfold vector_sum_sequential
  rw [foldl_set_eq_map (fun i => sum_int64 (vectorAt data i)) _ _
    (fun j hj => List.mem_range.mpr (by omega)), hlen]
  exact map_range_vectorAt sum_int64 data

theorem toInt64_of_fits (x : Int) (h1 : -2 ^ 63 ≤ x) (h2 : x < 2 ^ 63) : toInt64 x = x := by
  unfold toInt64; omega

theorem foldl_int64_exact (v : List int8_t) (k : Nat) (acc : Int)
    (hlo : -128 * (k : Int) ≤ acc) (hhi : acc ≤ 127 * (k : Int))
    (hfit : 128 * (k + v.length) ≤ 2 ^ 63) :
    v.foldl (fun sum n => toInt64 (sum + n.val)) acc = acc + exact_sum v := by
  induction v generalizing k acc with
  | nil => simp [exact_sum]
  | cons x rest ih =>
    have hx1 := x.property.1
    have hx2 := x.property.2
    simp only [List.length_cons] at hfit
    have hstep : toInt64 (acc + x.val) = acc + x.val := by
      apply toInt64_of_fits <;> omega
    rw [List.foldl_cons, hstep, ih (k + 1) (acc + x.val) (by push_cast; omega)
      (by push_cast; omega) (by omega)]
    simp [exact_sum, List.sum_cons]
    ring

theorem sum_int64_exact (v : List int8_t) (hfit : 128 * v.length ≤ 2 ^ 63) :
    sum_int64 v = exact_sum v := by
  have h := foldl_int64_exact v 0 0 (by simp) (by simp) (by simpa using hfit)
  simpa [sum_int64] using h

/-! ## `int` arithmetic -/

theorem toInt32_zero : toInt32 0 = 0 := by decide

theorem toInt32_add_toInt32 (a b : Int) : toInt32 (toInt32 a + toInt32 b) = toInt32 (a + b) := by
  unfold toInt32; omega

theorem toInt32_add_left (a b : Int) : toInt32 (toInt32 a + b) = toInt32 (a + b) := by
  unfold toInt32; omega

theorem foldl_int32 (v : List int8_t) (acc : Int) :
    v.foldl (fun acc x => toInt32 (acc + x.val)) (toInt32 acc) = toInt32 (acc + exact_sum v) := by
  induction v generalizing acc with
  | nil => simp [exact_sum]
  | cons x rest ih =>
    rw [List.foldl_cons, toInt32_add_left, ih]
    simp [exact_sum, List.sum_cons, add_assoc]

/-- `std::accumulate` with an `int` accumulator yields the exact sum wrapped to 32 bits. -/
theorem accumulate_int_eq (v : List int8_t) : accumulate_int v = toInt32 (exact_sum v) := by
  have h := foldl_int32 v 0
  rw [toInt32_zero] at h
  simpa [accumulate_int] using h

/-! ## Shares of a reduction loop partition the iterations -/

theorem sum_indicator_range (w c : Nat) (hc : c < w) (a : Int) :
    ((List.range w).map (fun k => if c = k then a else 0)).sum = a := by
  induction w with
  | zero => omega
  | succ n ih =>
    rw [List.range_succ, List.map_append, List.sum_append]
    by_cases hcn : c = n
    · subst hcn
      have hz : ((List.range c).map (fun k => if c = k then a else 0)) =
          (List.range c).map (fun _ => (0 : Int)) := by
        apply List.map_congr_left
        intro k hk
        have : k < c := List.mem_range.mp hk
        have hne : c ≠ k := by omega
        simp [hne]
      rw [hz]
      simp
    · have hlt : c < n := by omega
      rw [ih hlt]
      simp [hcn]

theorem sum_filter_classes (assign : Nat → Nat) (w : Nat) (hw : 0 < w)
    (ps : List (Nat × int8_t)) :
    ((List.range w).map
      (fun k => exact_sum ((ps.filter (fun p => assign p.1 % w = k)).map Prod.snd))).sum =
      exact_sum (ps.map Prod.snd) := by
  induction ps with
  | nil => simp [exact_sum]
  | cons p rest ih =>
    have hc : assign p.1 % w < w := Nat.mod_lt _ hw
    have hsplit : (List.range w).map
        (fun k => exact_sum (((p :: rest).filter (fun q => assign q.1 % w = k)).map Prod.snd)) =
        (List.range w).map (fun k => (if assign p.1 % w = k then p.2.val else 0) +
          exact_sum ((rest.filter (fun q => assign q.1 % w = k)).map Prod.snd)) := by
      apply List.map_congr_left
      intro k _
      by_cases hk : assign p.1 % w = k
      · simp [List.filter_cons, hk, exact_sum]
      · simp [List.filter_cons, hk, exact_sum]
    rw [hsplit, List.sum_map_add, sum_indicator_range w _ hc, ih]
    simp [exact_sum]

theorem sum_shares (assign : Nat → Nat) (w : Nat) (hw : 0 < w) (xs : List int8_t) :
    ((List.range w).map (fun k => exact_sum (share assign w k xs))).sum = exact_sum xs := by
  have h := sum_filter_classes assign w hw xs.enum
  rw [List.enum_map_snd] at h
  exact h

theorem foldl_merge_int32 (S : Nat → Int) (order : List Nat) (acc : Int) :
    order.foldl (fun x k => toInt32 (x + toInt32 (S k))) (toInt32 acc) =
      toInt32 (acc + (order.map S).sum) := by
  induction order generalizing acc with
  | nil => simp
  | cons k rest ih =>
    rw [List.foldl_cons, toInt32_add_toInt32, ih]
    simp [List.sum_cons, add_assoc]

/-- The inner reduction yields the exact sum wrapped to 32 bits, whatever the team
size and the merge order. -/
theorem inner_reduction_eq (team : Team) (v : List int8_t) :
    inner_reduction team v = toInt32 (exact_sum v) := by
  unfold inner_reduction omp_reduction
  have hpart : ∀ k, (share (fun j => j / 256) team.workers k v).foldl
      (fun local_sum x => toInt32 (local_sum + x.val)) 0 =
      toInt32 (exact_sum (share (fun j => j / 256) team.workers k v)) := by
    intro k
    have h := foldl_int32 (share (fun j => j / 256) team.workers k v) 0
    rw [toInt32_zero] at h
    simpa using h
  simp only [hpart]
  have h := foldl_merge_int32 (fun k => exact_sum (share (fun j => j / 256) team.workers k v))
    team.merge.order 0
  rw [toInt32_zero] at h
  rw [h, (team.merge.perm.map _).sum_eq, sum_shares _ _ team.workers_pos]
  simp

/-! ## Characterisation of the parallel strategies -/

theorem schedule_mem {n : Nat} (sched : Schedule n) (j : Nat) (hj : j < n) : j ∈ sched.order :=
  sched.perm.mem_iff.mpr (List.mem_range.mpr hj)

theorem vector_sum_omp_static_eq_map (rt : Runtime) (data : InputVectors) (solution : OutputVector)
    (m : Nat) (hlen : solution.length = data.length) :
    vector_sum_omp_static rt data solution m = data.map wrapped_sum := by
  unfold vector_sum_omp_static omp_parallel_for
  rw [foldl_set_eq_map (fun i => accumulate_int (vectorAt data i)) _ _
    (fun j hj => schedule_mem _ j (by omega)), hlen]
  simp only [accumulate_int_eq]
  exact map_range_vectorAt wrapped_sum data

theorem vector_sum_omp_dynamic_eq_map (rt : Runtime) (data : InputVectors) (solution : OutputVector)
    (m : Nat) (hlen : solution.length = data.length) :
    vector_sum_omp_dynamic rt data solution m = data.map wrapped_sum :=
  vector_sum_omp_static_eq_map rt data solution m hlen

theorem vector_sum_omp_per_vector_eq_map (rt : Runtime) (data : InputVectors)
    (solution : OutputVector) (m : Nat) (hlen : solution.length = data.length) :
    vector_sum_omp_per_vector rt data solution m = data.map wrapped_sum := by
  unfold vector_sum_omp_per_vector omp_parallel_for
  have hbody : (fun (sol : OutputVector) (i : Nat) =>
      if (vectorAt data i).length ≥ m then
        sol.set i (inner_reduction (rt.inner_team i) (vectorAt data i))
      else sol.set i (accumulate_int (vectorAt data i))) =
      (fun sol i => sol.set i (wrapped_sum (vectorAt data i))) := by
    funext sol i
    simp [inner_reduction_eq, accumulate_int_eq, wrapped_sum]
  rw [hbody, foldl_set_eq_map (fun i => wrapped_sum (vectorAt data i)) _ _
    (fun j hj => schedule_mem _ j (by omega)), hlen]
  exact map_range_vectorAt wrapped_sum data

/-! ## The shuffled strategy -/

theorem map_getD_range (l : List Nat) :
    (List.range l.length).map (fun idx => l.getD idx 0) = l := by
  apply List.ext_getElem?
  intro j
  by_cases hj : j < l.length
  · simp [List.getElem?_range hj, List.getElem?_eq_getElem hj, hj]
  · have e1 : l[j]? = none := List.getElem?_eq_none (by omega)
    have e2 : ((List.range l.length).map (fun idx => l.getD idx 0))[j]? = none :=
      List.getElem?_eq_none (by simp; omega)
    rw [e1, e2]

theorem iota_int_eq (n : Nat) (v : Int) :
    iota_int n (toInt32 v) =
      (List.range n).map (fun k : Nat => size_t_of_int (toInt32 (v + (k : Int)))) := by
  induction n generalizing v with
  | zero => rfl
  | succ n ih =>
    rw [iota_int, toInt32_add_left, ih (v + 1), List.range_succ_eq_map, List.map_cons,
      List.map_map]
    congr 1
    · simp
    · apply List.map_congr_left
      intro k _
      simp only [Function.comp, Nat.succ_eq_add_one]
      push_cast
      rw [add_assoc, add_comm (1 : Int) (k : Int)]

/-- Entry `k` of `indices` after `std::iota` is the `int` counter after `k`
increments, converted to `size_t`. -/
theorem iota_int_zero (n : Nat) :
    iota_int n 0 = (List.range n).map (fun k : Nat => size_t_of_int (toInt32 (k : Int))) := by
  have h := iota_int_eq n 0
  rw [toInt32_zero] at h
  simpa using h

theorem size_t_of_int_small (k : Nat) (hk : k < 2 ^ 31) : size_t_of_int (toInt32 (k : Int)) = k := by
  unfold size_t_of_int toInt32
  omega

theorem iota_int_of_small (n : Nat) (hn : n ≤ 2 ^ 31) : iota_int n 0 = List.range n := by
  rw [iota_int_zero]
  have h : (List.range n).map (fun k : Nat => size_t_of_int (toInt32 (k : Int))) =
      (List.range n).map id := by
    apply List.map_congr_left
    intro k hk
    have hlt : k < n := List.mem_range.mp hk
    exact size_t_of_int_small k (by omega)
  rw [h, List.map_id]

theorem mem_iota_int (n j : Nat) :
    j ∈ iota_int n 0 ↔ ∃ k : Nat, k < n ∧ size_t_of_int (toInt32 (k : Int)) = j := by
  rw [iota_int_zero, List.mem_map]
  constructor
  · rintro ⟨k, hk, h⟩
    exact ⟨k, List.mem_range.mp hk, h⟩
  · rintro ⟨k, hk, h⟩
    exact ⟨k, List.mem_range.mpr hk, h⟩

theorem shuffle_indices_perm (rt : Runtime) (n : Nat) :
    (shuffle_indices rt n).Perm (iota_int n 0) := by
  unfold shuffle_indices
  refine ((rt.shuffled _).perm.map _).trans ?_
  rw [map_getD_range]

theorem shuffle_targets_perm_iota (rt : Runtime) (data : InputVectors) :
    (shuffle_targets rt data).Perm (iota_int data.length 0) := by
  unfold shuffle_targets
  refine ((rt.schedule _).perm.map _).trans ?_
  rw [map_getD_range]
  exact shuffle_indices_perm rt data.length

theorem vector_sum_omp_shuffle_targets (rt : Runtime) (data : InputVectors)
    (solution : OutputVector) (m : Nat) :
    vector_sum_omp_shuffle rt data solution m =
      (shuffle_targets rt data).foldl
        (fun sol i => sol.set i (accumulate_int (vectorAt data i))) solution := by
  unfold vector_sum_omp_shuffle omp_parallel_for shuffle_targets
  rw [List.foldl_map]

/-- Slot by slot, the shuffled strategy stores the wrapped sum of vector `j` in slot
`j` when `j` is an entry of `indices`, and leaves the slot as it was otherwise. -/
theorem vector_sum_omp_shuffle_getElem? (rt : Runtime) (data : InputVectors)
    (solution : OutputVector) (m : Nat) (j : Nat) :
    (vector_sum_omp_shuffle rt data solution m)[j]? =
      if j ∈ iota_int data.length 0 ∧ j < solution.length then
        some (wrapped_sum (vectorAt data j))
      else solution[j]? := by
  rw [vector_sum_omp_shuffle_targets]
  simp only [accumulate_int_eq]
  rw [getElem?_foldl_set (fun i => toInt32 (exact_sum (vectorAt data i)))]
  simp only [(shuffle_targets_perm_iota rt data).mem_iff, wrapped_sum]

/-- The output of the shuffled strategy does not depend on the runtime decisions. -/
theorem vector_sum_omp_shuffle_canonical (rt : Runtime) (data : InputVectors)
    (solution : OutputVector) (m : Nat) :
    vector_sum_omp_shuffle rt data solution m =
      (iota_int data.length 0).foldl
        (fun sol i => sol.set i (wrapped_sum (vectorAt data i))) solution := by
  apply List.ext_getElem?
  intro j
  rw [vector_sum_omp_shuffle_getElem?, getElem?_foldl_set]

theorem vector_sum_omp_shuffle_eq_map (rt : Runtime) (data : InputVectors)
    (solution : OutputVector) (m : Nat) (hlen : solution.length = data.length)
    (hn : data.length ≤ 2 ^ 31) :
    vector_sum_omp_shuffle rt data solution m = data.map wrapped_sum := by
  rw [vector_sum_omp_shuffle_canonical, iota_int_of_small _ hn,
    foldl_set_eq_map (fun i => wrapped_sum (vectorAt data i)) _ _
      (fun j hj => List.mem_range.mpr (by omega)), hlen]
  exact map_range_vectorAt wrapped_sum data

/-! ## The minimum reduction -/

theorem foldl_min_body_spec (xs : InputVectors) (m : Nat) :
    xs.foldl min_body m ≤ m ∧ (∀ v ∈ xs, xs.foldl min_body m ≤ v.length) ∧
      (xs.foldl min_body m = m ∨ ∃ v ∈ xs, xs.foldl min_body m = v.length) := by
  induction xs generalizing m with
  | nil => simp
  | cons x rest ih =>
    obtain ⟨h1, h2, h3⟩ := ih (min_body m x)
    have hm : min_body m x ≤ m := by unfold min_body; split <;> omega
    have hx : min_body m x ≤ x.length := by unfold min_body; split <;> omega
    have hc : min_body m x = m ∨ min_body m x = x.length := by
      unfold min_body; split
      · exact Or.inr rfl
      · exact Or.inl rfl
    rw [List.foldl_cons]
    refine ⟨le_trans h1 hm, ?_, ?_⟩
    · intro v hv
      rcases List.mem_cons.mp hv with hv | hv
      · subst hv; exact le_trans h1 hx
      · exact h2 v hv
    · rcases h3 with h3 | ⟨v, hv, h3⟩
      · rcases hc with hc | hc
        · exact Or.inl (h3.trans hc)
        · exact Or.inr ⟨x, List.mem_cons_self _ _, h3.trans hc⟩
      · exact Or.inr ⟨v, List.mem_cons_of_mem _ hv, h3⟩

theorem foldl_min_spec (ps : List Nat) (m : Nat) :
    ps.foldl min m ≤ m ∧ (∀ p ∈ ps, ps.foldl min m ≤ p) ∧
      (ps.foldl min m = m ∨ ps.foldl min m ∈ ps) := by
  induction ps generalizing m with
  | nil => simp
  | cons x rest ih =>
    obtain ⟨h1, h2, h3⟩ := ih (min m x)
    rw [List.foldl_cons]
    refine ⟨le_trans h1 (Nat.min_le_left _ _), ?_, ?_⟩
    · intro p hp
      rcases List.mem_cons.mp hp with hp | hp
      · subst hp; exact le_trans h1 (Nat.min_le_right _ _)
      · exact h2 p hp
    · rcases h3 with h3 | h3
      · rcases Nat.le_total m x with hmx | hmx
        · exact Or.inl (h3.trans (Nat.min_eq_left hmx))
        · exact Or.inr (by rw [h3, Nat.min_eq_right hmx]; exact List.mem_cons_self _ _)
      · exact Or.inr (List.mem_cons_of_mem _ h3)

theorem mem_of_mem_share {α : Type} (assign : Nat → Nat) (w k : Nat) (xs : List α) (v : α)
    (h : v ∈ share assign w k xs) : v ∈ xs := by
  unfold share at h
  obtain ⟨p, hp, rfl⟩ := List.mem_map.mp h
  have hp2 : p ∈ xs.enum := (List.mem_filter.mp hp).1
  have := List.mem_map_of_mem Prod.snd hp2
  rwa [List.enum_map_snd] at this

theorem exists_share_of_mem {α : Type} (assign : Nat → Nat) (w : Nat) (hw : 0 < w) (xs : List α)
    (v : α) (h : v ∈ xs) : ∃ k, k < w ∧ v ∈ share assign w k xs := by
  rw [← List.enum_map_snd xs] at h
  obtain ⟨p, hp, rfl⟩ := List.mem_map.mp h
  refine ⟨assign p.1 % w, Nat.mod_lt _ hw, ?_⟩
  unfold share
  exact List.mem_map_of_mem Prod.snd (List.mem_filter.mpr ⟨hp, by simp⟩)

/-- The minimum reduction returns what the left-to-right scan returns, for every
split of the iterations, every team size and every merge order. -/
theorem smallest_parallel_eq (assign : Nat → Nat) (team : Team) (data : InputVectors) :
    smallest_parallel assign team data = smallest_sequential data := by
  unfold smallest_parallel smallest_sequential omp_reduction
  rw [← List.foldl_map (fun k => (share assign team.workers k data).foldl min_body SIZE_MAX) min]
  obtain ⟨r1, r2, r3⟩ := foldl_min_body_spec data SIZE_MAX
  obtain ⟨p1, p2, p3⟩ := foldl_min_spec
    (team.merge.order.map (fun k => (share assign team.workers k data).foldl min_body SIZE_MAX))
    SIZE_MAX
  apply Nat.le_antisymm
  · rcases r3 with r3 | ⟨v, hv, r3⟩
    · rw [r3]; exact p1
    · obtain ⟨k, hk, hmem⟩ := exists_share_of_mem assign team.workers team.workers_pos data v hv
      have hin : (share assign team.workers k data).foldl min_body SIZE_MAX ∈
          team.merge.order.map
            (fun k => (share assign team.workers k data).foldl min_body SIZE_MAX) :=
        List.mem_map_of_mem _ (schedule_mem team.merge k hk)
      rw [r3]
      exact le_trans (p2 _ hin) ((foldl_min_body_spec _ SIZE_MAX).2.1 v hmem)
  · rcases p3 with p3 | p3
    · rw [p3]; exact r1
    · obtain ⟨k, _, hk⟩ := List.mem_map.mp p3
      rcases (foldl_min_body_spec (share assign team.workers k data) SIZE_MAX).2.2 with h | h
      · rw [← hk, h]; exact r1
      · obtain ⟨v, hv, h⟩ := h
        rw [← hk, h]
        exact r2 v (mem_of_mem_share assign team.workers k data v hv)

theorem size_of_smallest_vector_eq (rt : Runtime) (data : InputVectors) :
    size_of_smallest_vector rt data = smallest_sequential data := by
  unfold size_of_smallest_vector
  split
  · exact smallest_parallel_eq rt.reduction_team.assign rt.reduction_team data
  · exact smallest_parallel_eq Team.single.assign Team.single data

/-! ## The harness -/

theorem execute_method_eq (functionPtr : SolutionFn) (correct_solution : OutputVector)
    (data : InputVectors) (m : Nat) (t0 t1 : Int) :
    execute_method functionPtr correct_solution data m t0 t1 =
      if strategy_output functionPtr data m = correct_solution then Except.ok (some (t1 - t0))
      else Except.ok none := by
  unfold execute_method strategy_output
  dsimp only
  generalize functionPtr data (List.replicate data.length 0) m = call
  rcases call with ⟨outcome, buffer⟩
  cases outcome with
  | ok u => rfl
  | error e => rfl

theorem strategy_output_returns (strategy : InputVectors → OutputVector → Nat → OutputVector)
    (data : InputVectors) (m : Nat) :
    strategy_output (returns strategy) data m = strategy data (List.replicate data.length 0) m :=
  rfl

/-! ## The workload generator -/

theorem vectorAt_eq (data : InputVectors) (i : Nat) : vectorAt data i = data[i]?.getD [] := by
  simp [vectorAt]

theorem vectorAt_set_self (data : InputVectors) (k : Nat) (v : List int8_t)
    (hk : k < data.length) : vectorAt (data.set k v) k = v := by
  simp [vectorAt_eq, List.getElem?_set_self hk]

theorem vectorAt_set_ne (data : InputVectors) (k i : Nat) (v : List int8_t) (hne : k ≠ i) :
    vectorAt (data.set k v) i = vectorAt data i := by
  simp [vectorAt_eq, List.getElem?_set_ne hne]

theorem fill_vector_spec {σ : Type} (dist : σ → int8_t × σ) (v : List int8_t) (sum : Int)
    (gen : σ) :
    (fill_vector dist v sum gen).1.length = v.length ∧
      (fill_vector dist v sum gen).2.1 =
        (fill_vector dist v sum gen).1.foldl (fun s n => toInt64 (s + n.val)) sum := by
  induction v generalizing sum gen with
  | nil => simp [fill_vector]
  | cons x rest ih =>
    obtain ⟨h1, h2⟩ := ih (toInt64 (sum + (dist gen).1.val)) (dist gen).2
    simp only [fill_vector, List.length_cons, List.foldl_cons]
    exact ⟨by rw [h1], h2⟩

/-- Invariant of the outer loop of `generate_data` after `k` iterations. -/
theorem generate_loop_invariant {σ : Type} (dist : σ → int8_t × σ) (seed : σ)
    (solution : OutputVector) (data : InputVectors) (hlen : solution.length = data.length)
    (k : Nat) (hk : k ≤ data.length) :
    ((List.range k).foldl (generate_step dist) (solution, data, seed)).1.length = data.length ∧
    ((List.range k).foldl (generate_step dist) (solution, data, seed)).2.1.length = data.length ∧
    (∀ i, i < k →
      ((List.range k).foldl (generate_step dist) (solution, data, seed)).1[i]? =
        some (sum_int64
          (vectorAt ((List.range k).foldl (generate_step dist) (solution, data, seed)).2.1 i))) ∧
    (∀ i, (vectorAt ((List.range k).foldl (generate_step dist) (solution, data, seed)).2.1 i).length
        = (vectorAt data i).length) := by
  induction k with
  | zero => simp [hlen]
  | succ k ih =>
    obtain ⟨h1, h2, h3, h4⟩ := ih (by omega)
    rw [List.range_succ, List.foldl_append, List.foldl_cons, List.foldl_nil]
    generalize (List.range k).foldl (generate_step dist) (solution, data, seed) = st at h1 h2 h3 h4
    obtain ⟨f1, f2⟩ := fill_vector_spec dist (vectorAt st.2.1 k) 0 st.2.2
    have hk1 : k < st.1.length := by omega
    have hk2 : k < st.2.1.length := by omega
    simp only [generate_step]
    refine ⟨by simp [h1], by simp [h2], ?_, ?_⟩
    · intro i hi
      by_cases hik : i = k
      · subst hik
        rw [List.getElem?_set_self hk1, vectorAt_set_self _ _ _ hk2, f2]
        rfl
      · have hne : k ≠ i := fun h => hik h.symm
        rw [List.getElem?_set_ne hne, vectorAt_set_ne _ _ _ _ hne]
        exact h3 i (by omega)
    · intro i
      by_cases hik : i = k
      · subst hik
        rw [vectorAt_set_self _ _ _ hk2, f1]
        exact h4 i
      · have hne : k ≠ i := fun h => hik h.symm
        rw [vectorAt_set_ne _ _ _ _ hne]
        exact h4 i

theorem generate_data_ok {σ : Type} (dist : σ → int8_t × σ) (seed : σ)
    (solution : OutputVector) (data : InputVectors) (hlen : solution.length = data.length) :
    generate_data dist seed solution data =
      (Except.ok (),
        ((List.range data.length).foldl (generate_step dist) (solution, data, seed)).1,
        ((List.range data.length).foldl (generate_step dist) (solution, data, seed)).2.1) := by
  unfold generate_data
  simp [hlen]

theorem generate_data_eq_map {σ : Type} (dist : σ → int8_t × σ) (seed : σ)
    (solution : OutputVector) (data : InputVectors) (hlen : solution.length = data.length) :
    (generate_data dist seed solution data).2.1 =
      (generate_data dist seed solution data).2.2.map sum_int64 := by
  rw [generate_data_ok dist seed solution data hlen]
  obtain ⟨h1, h2, h3, _⟩ :=
    generate_loop_invariant dist seed solution data hlen data.length (Nat.le_refl _)
  generalize (List.range data.length).foldl (generate_step dist) (solution, data, seed) = st
    at h1 h2 h3
  show st.1 = st.2.1.map sum_int64
  apply List.ext_getElem?
  intro j
  by_cases hj : j < data.length
  · rw [h3 j hj, vectorAt_eq]
    have hj2 : j < st.2.1.length := by omega
    simp [List.getElem?_eq_getElem hj2]
  · have e1 : st.1[j]? = none := List.getElem?_eq_none (by omega)
    have e2 : (st.2.1.map sum_int64)[j]? = none := List.getElem?_eq_none (by simp; omega)
    rw [e1, e2]

/-! ## The harness run as a whole -/

theorem execute_method_ok (functionPtr : SolutionFn) (correct_solution : OutputVector)
    (data : InputVectors) (m : Nat) (t0 t1 : Int) :
    execute_method functionPtr correct_solution data m t0 t1 =
      Except.ok (if strategy_output functionPtr data m = correct_solution then some (t1 - t0)
        else none) := by
  rw [execute_method_eq]
  split <;> rfl

theorem exact_sum_long_vector : exact_sum long_vector = 2147483767 := by
  unfold exact_sum long_vector
  rw [List.map_replicate, List.sum_replicate]
  show (16909321 : Nat) • (127 : Int) = 2147483767
  rw [nsmul_eq_mul]
  norm_num

theorem wrapped_sum_long_vector : wrapped_sum long_vector = -2147483529 := by
  unfold wrapped_sum
  rw [exact_sum_long_vector]
  decide

theorem sum_int64_long_vector : sum_int64 long_vector = 2147483767 := by
  have hlen : long_vector.length = 16909321 := List.length_replicate _ _
  rw [sum_int64_exact long_vector (by rw [hlen]; norm_num), exact_sum_long_vector]

/-! ## Claims -/

/-- C1 fails on the code. On the dataset holding one vector of 16909321 elements, all
equal to 127, with an output buffer of length 1, the sequential strategy stores the
exact sum 2147483767, while each of the four parallel strategies stores -2147483529
(the sum wrapped to 32 bits), for every runtime decision and every `min_vector_size`. -/
theorem parallel_strategies_differ_on_long_vector (rt : Runtime) (m : Nat) :
    vector_sum_sequential [long_vector] [0] m = [2147483767] ∧
    vector_sum_omp_per_vector rt [long_vector] [0] m = [-2147483529] ∧
    vector_sum_omp_shuffle rt [long_vector] [0] m = [-2147483529] ∧
    vector_sum_omp_dynamic rt [long_vector] [0] m = [-2147483529] ∧
    vector_sum_omp_static rt [long_vector] [0] m = [-2147483529] := by
  refine ⟨?_, ?_, ?_, ?_, ?_⟩
  · rw [vector_sum_sequential_eq_map _ _ _ rfl]
    simp [sum_int64_long_vector]
  · rw [vector_sum_omp_per_vector_eq_map _ _ _ _ rfl]
    simp [wrapped_sum_long_vector]
  · rw [vector_sum_omp_shuffle_eq_map _ _ _ _ rfl (by simp)]
    simp [wrapped_sum_long_vector]
  · rw [vector_sum_omp_dynamic_eq_map _ _ _ _ rfl]
    simp [wrapped_sum_long_vector]
  · rw [vector_sum_omp_static_eq_map _ _ _ _ rfl]
    simp [wrapped_sum_long_vector]

/-- C2. For every dataset whose vectors have at most 2^56 elements (so that 128 times
the length fits the 64-bit accumulator) and every output buffer of length `|data|`,
`vector_sum_sequential` returns the ground truth: the output has one slot per vector,
slot `i` holds the exact arithmetic sum of `data[i]`, and 0 for an empty vector. -/
theorem vector_sum_sequential_ground_truth (data : InputVectors) (solution : OutputVector)
    (m : Nat) (hlen : solution.length = data.length)
    (hfit : ∀ v ∈ data, 128 * v.length ≤ 2 ^ 63) :
    vector_sum_sequential data solution m = ground_truth data ∧
    (vector_sum_sequential data solution m).length = data.length ∧
    (∀ i : Nat, i < data.length →
      (vector_sum_sequential data solution m)[i]? = some (exact_sum (vectorAt data i))) ∧
    (∀ i : Nat, data[i]? = some [] →
      (vector_sum_sequential data solution m)[i]? = some 0) := by
  have hgt : vector_sum_sequential data solution m = ground_truth data := by
    rw [vector_sum_sequential_eq_map data solution m hlen]
    unfold ground_truth
    apply List.map_congr_left
    intro v hv
    exact sum_int64_exact v (hfit v hv)
  refine ⟨hgt, by rw [hgt]; simp [ground_truth], ?_, ?_⟩
  · intro i hi
    rw [hgt, vectorAt_eq]
    simp [ground_truth, List.getElem?_eq_getElem hi]
  · intro i hi
    rw [hgt]
    simp [ground_truth, hi, exact_sum]

/-- Witness of C2 on the dataset of an empty vector and a vector of two elements. -/
theorem vector_sum_sequential_ground_truth_witness :
    vector_sum_sequential [[], [int8_max, int8_max]] [7, 7] 0 = [0, 254] :=
  (vector_sum_sequential_ground_truth [[], [int8_max, int8_max]] [7, 7] 0 (by decide)
    (by decide)).1

/-- C3. `execute_method` returns a duration exactly when the output buffer of the
strategy (`|data|` zeros, then whatever the strategy left in it) equals the ground
truth, the duration being the difference of the two clock readings; otherwise it
returns no duration. In particular a buffer left all zero against a ground truth
with a non-zero element gives no duration. -/
theorem execute_method_valid_iff (functionPtr : SolutionFn) (correct_solution : OutputVector)
    (data : InputVectors) (m : Nat) (t0 t1 : Int) :
    ((∃ d, execute_method functionPtr correct_solution data m t0 t1 = Except.ok (some d)) ↔
      strategy_output functionPtr data m = correct_solution) ∧
    (strategy_output functionPtr data m = correct_solution →
      execute_method functionPtr correct_solution data m t0 t1 = Except.ok (some (t1 - t0))) ∧
    (strategy_output functionPtr data m ≠ correct_solution →
      execute_method functionPtr correct_solution data m t0 t1 = Except.ok none) ∧
    (strategy_output functionPtr data m = List.replicate data.length 0 →
      (∃ x ∈ correct_solution, x ≠ 0) →
      execute_method functionPtr correct_solution data m t0 t1 = Except.ok none) := by
  rw [execute_method_ok]
  refine ⟨?_, ?_, ?_, ?_⟩
  · by_cases h : strategy_output functionPtr data m = correct_solution
    · simp [h]
    · simp [h]
  · intro h; simp [h]
  · intro h; simp [h]
  · intro hz ⟨x, hx, hx0⟩
    have hne : strategy_output functionPtr data m ≠ correct_solution := by
      intro h
      rw [← h, hz] at hx
      exact hx0 (List.eq_of_mem_replicate hx)
    simp [hne]

/-- Witness of C3: the sequential strategy against the right ground truth yields the
duration, and a strategy leaving the zeros in place against it yields none. -/
theorem execute_method_valid_iff_witness :
    execute_method (returns vector_sum_sequential) [0, 254] [[], [int8_max, int8_max]] 0 3 10 =
      Except.ok (some (10 - 3)) ∧
    execute_method (returns (fun _ solution _ => solution)) [0, 254]
      [[], [int8_max, int8_max]] 0 3 10 = Except.ok none :=
  ⟨(execute_method_valid_iff (returns vector_sum_sequential) [0, 254]
      [[], [int8_max, int8_max]] 0 3 10).2.1 (by decide),
   (execute_method_valid_iff (returns (fun _ solution _ => solution)) [0, 254]
      [[], [int8_max, int8_max]] 0 3 10).2.2.2 (by decide) ⟨254, by decide, by decide⟩⟩

/-- C4 fails on the code. A strategy that raises on every invocation, run on the
dataset of one empty vector against the ground truth `[0]`, makes `execute_method`
return a duration: the error is swallowed (the call returns normally) and the
untouched zero buffer equals the ground truth. -/
theorem execute_method_always_throws_valid (m : Nat) (t0 t1 : Int) :
    execute_method always_throws [0] [[]] m t0 t1 = Except.ok (some (t1 - t0)) := by
  rw [execute_method_ok]
  rfl

/-- C5. When `solution` has one slot per vector, `generate_data` returns normally,
keeps the number of vectors and every vector length, and leaves in `solution` one
entry per vector, equal to the 64-bit sum of the elements it wrote into that vector:
`solution` is the output of `vector_sum_sequential` on the filled dataset, whatever
the random source drew. When every vector has at most 2^56 elements this is the
exact arithmetic sum (the ground truth of the filled dataset). -/
theorem generate_data_solution {σ : Type} (dist : σ → int8_t × σ) (seed : σ)
    (solution : OutputVector) (data : InputVectors) (m : Nat)
    (hlen : solution.length = data.length) :
    (generate_data dist seed solution data).1 = Except.ok () ∧
    (generate_data dist seed solution data).2.1.length = data.length ∧
    (generate_data dist seed solution data).2.2.length = data.length ∧
    (∀ i, (vectorAt (generate_data dist seed solution data).2.2 i).length =
      (vectorAt data i).length) ∧
    (generate_data dist seed solution data).2.1 =
      vector_sum_sequential (generate_data dist seed solution data).2.2 solution m ∧
    ((∀ v ∈ data, 128 * v.length ≤ 2 ^ 63) →
      (generate_data dist seed solution data).2.1 =
        ground_truth (generate_data dist seed solution data).2.2) := by
  have hmap := generate_data_eq_map dist seed solution data hlen
  have hok := generate_data_ok dist seed solution data hlen
  obtain ⟨h1, h2, _, h4⟩ :=
    generate_loop_invariant dist seed solution data hlen data.length (Nat.le_refl _)
  have hl1 : (generate_data dist seed solution data).2.1.length = data.length := by
    rw [hok]; exact h1
  have hl2 : (generate_data dist seed solution data).2.2.length = data.length := by
    rw [hok]; exact h2
  have hl4 : ∀ i, (vectorAt (generate_data dist seed solution data).2.2 i).length =
      (vectorAt data i).length := by
    rw [hok]; exact h4
  refine ⟨by rw [hok], hl1, hl2, hl4, ?_, ?_⟩
  · rw [vector_sum_sequential_eq_map _ _ _ (by rw [hl2, hlen])]
    exact hmap
  · intro hfit
    rw [hmap]
    unfold ground_truth
    apply List.map_congr_left
    intro v hv
    apply sum_int64_exact
    obtain ⟨i, hi, hget⟩ := List.getElem_of_mem hv
    have hv1 : vectorAt (generate_data dist seed solution data).2.2 i = v := by
      rw [vectorAt_eq, List.getElem?_eq_getElem hi, hget]; rfl
    have hi2 : i < data.length := by omega
    have hv2 : vectorAt data i = data[i] := by
      rw [vectorAt_eq, List.getElem?_eq_getElem hi2]; rfl
    have hlen_v := hl4 i
    rw [hv1, hv2] at hlen_v
    rw [hlen_v]
    exact hfit _ (List.getElem_mem hi2)

/-- Witness of C5: a generator that draws 127, 126, 125, ... on two slots and the vector
lengths 0 and 2. -/
theorem generate_data_solution_witness :
    (generate_data (fun g : Nat => ((⟨127 - (g % 2 : Nat), by omega⟩ : int8_t), g + 1)) 0 [7, 7]
      [[], [int8_max, int8_max]]).2.1 = [0, 253] :=
  ((generate_data_solution (fun g : Nat => ((⟨127 - (g % 2 : Nat), by omega⟩ : int8_t), g + 1)) 0
    [7, 7] [[], [int8_max, int8_max]] 0 (by decide)).2.2.2.2.2 (by decide)).trans (by decide)

/-- C6. `generate_data` raises (the invalid-argument error) exactly when the number of
solution slots differs from the number of vectors, and then `solution` and `data`
are exactly as they were passed in. -/
theorem generate_data_fails_iff {σ : Type} (dist : σ → int8_t × σ) (seed : σ)
    (solution : OutputVector) (data : InputVectors) :
    ((∃ e, (generate_data dist seed solution data).1 = Except.error e) ↔
      solution.length ≠ data.length) ∧
    (solution.length ≠ data.length →
      (generate_data dist seed solution data).1 = Except.error
        (Thrown.invalid_argument "Solution vector and number of data vectors must match.") ∧
      (generate_data dist seed solution data).2.1 = solution ∧
      (generate_data dist seed solution data).2.2 = data) := by
  by_cases h : data.length = solution.length
  · have hne : ¬ solution.length ≠ data.length := fun hh => hh h.symm
    have hok := generate_data_ok dist seed solution data h.symm
    refine ⟨⟨?_, fun hh => absurd hh hne⟩, fun hh => absurd hh hne⟩
    rintro ⟨e, he⟩
    rw [hok] at he
    cases he
  · have hne : solution.length ≠ data.length := fun hh => h hh.symm
    have herr : generate_data dist seed solution data =
        (Except.error
          (Thrown.invalid_argument "Solution vector and number of data vectors must match."),
          solution, data) := by
      unfold generate_data
      simp [h]
    refine ⟨⟨fun _ => hne, fun _ => ⟨_, by rw [herr]⟩⟩, fun _ => ?_⟩
    rw [herr]
    exact ⟨rfl, rfl, rfl⟩

/-- Witness of C6: two solution slots for one vector. -/
theorem generate_data_fails_iff_witness :
    (generate_data (fun g : Nat => (int8_max, g + 1)) 0 [7, 7] [[int8_max]]).2.1 = [7, 7] ∧
    (generate_data (fun g : Nat => (int8_max, g + 1)) 0 [7, 7] [[int8_max]]).2.2 =
      [[int8_max]] :=
  ((generate_data_fails_iff (fun g : Nat => (int8_max, g + 1)) 0 [7, 7] [[int8_max]]).2
    (by decide)).2

/-- C7. On a non-empty dataset (vector lengths being `size_t` values),
`size_of_smallest_vector` returns the minimum vector length: a value at most the
length of every vector and equal to the length of some vector; on the dataset of a
single empty vector it returns 0. -/
theorem size_of_smallest_vector_is_minimum (rt : Runtime) (data : InputVectors)
    (hne : data ≠ []) (hsize : ∀ v ∈ data, v.length ≤ SIZE_MAX) :
    (∀ v ∈ data, size_of_smallest_vector rt data ≤ v.length) ∧
    (∃ v ∈ data, size_of_smallest_vector rt data = v.length) ∧
    size_of_smallest_vector rt [[]] = 0 := by
  rw [size_of_smallest_vector_eq, size_of_smallest_vector_eq]
  obtain ⟨_, h2, h3⟩ := foldl_min_body_spec data SIZE_MAX
  refine ⟨h2, ?_, by decide⟩
  rcases h3 with h3 | h3
  · obtain ⟨v, hv⟩ := List.exists_mem_of_ne_nil data hne
    refine ⟨v, hv, Nat.le_antisymm (h2 v hv) ?_⟩
    unfold smallest_sequential
    rw [h3]
    exact hsize v hv
  · exact h3

/-- Witness of C7 on a dataset with vector lengths 2, 1 and 3. -/
theorem size_of_smallest_vector_is_minimum_witness :
    size_of_smallest_vector Runtime.serial
      [[int8_max, int8_max], [int8_max], [int8_max, int8_max, int8_max]] ≤ 1 :=
  (size_of_smallest_vector_is_minimum Runtime.serial
    [[int8_max, int8_max], [int8_max], [int8_max, int8_max, int8_max]] (by decide)
    (by decide)).1 [int8_max] (by decide)

/-- C8. For every dataset, every split of the vectors among the workers, every team
size and every merge order, the parallel path of `size_of_smallest_vector` returns
what the sequential left-to-right scan returns; so does `size_of_smallest_vector`
itself on either side of its thread-count threshold, and two runtimes give the same
value. -/
theorem size_of_smallest_vector_path_independent (rt rt2 : Runtime) (assign : Nat → Nat)
    (team : Team) (data : InputVectors) :
    smallest_parallel assign team data = smallest_sequential data ∧
    size_of_smallest_vector rt data = smallest_sequential data ∧
    size_of_smallest_vector rt data = size_of_smallest_vector rt2 data := by
  refine ⟨smallest_parallel_eq assign team data, size_of_smallest_vector_eq rt data, ?_⟩
  rw [size_of_smallest_vector_eq, size_of_smallest_vector_eq]

/-- C9. `execute_methods` returns normally a `Results` whose five slots are, in the
order sequential, per-vector, shuffled-static, dynamic, static, the results of
`execute_method` for that strategy with the same ground truth, the same dataset and
`min_vector_size = size_of_smallest_vector data`; slot k holds a duration exactly
when the output of strategy k on the zeroed buffer equals the ground truth. -/
theorem execute_methods_slots (env : Env) (solution : OutputVector) (data : InputVectors) :
    ∃ r : Results, execute_methods env solution data = Except.ok r ∧
      (Except.ok r.time_ref = execute_method (returns vector_sum_sequential) solution data
        (size_of_smallest_vector (env.omp 0) data) (env.clock 0) (env.clock 1) ∧
       Except.ok r.time_per_vector =
        execute_method (returns (vector_sum_omp_per_vector (env.omp 1))) solution data
          (size_of_smallest_vector (env.omp 0) data) (env.clock 2) (env.clock 3) ∧
       Except.ok r.time_shuffle =
        execute_method (returns (vector_sum_omp_shuffle (env.omp 2))) solution data
          (size_of_smallest_vector (env.omp 0) data) (env.clock 4) (env.clock 5) ∧
       Except.ok r.time_omp_dynamic =
        execute_method (returns (vector_sum_omp_dynamic (env.omp 3))) solution data
          (size_of_smallest_vector (env.omp 0) data) (env.clock 6) (env.clock 7) ∧
       Except.ok r.time_omp_static =
        execute_method (returns (vector_sum_omp_static (env.omp 4))) solution data
          (size_of_smallest_vector (env.omp 0) data) (env.clock 8) (env.clock 9)) ∧
      ((r.time_ref.isSome ↔
          vector_sum_sequential data (List.replicate data.length 0)
            (size_of_smallest_vector (env.omp 0) data) = solution) ∧
       (r.time_per_vector.isSome ↔
          vector_sum_omp_per_vector (env.omp 1) data (List.replicate data.length 0)
            (size_of_smallest_vector (env.omp 0) data) = solution) ∧
       (r.time_shuffle.isSome ↔
          vector_sum_omp_shuffle (env.omp 2) data (List.replicate data.length 0)
            (size_of_smallest_vector (env.omp 0) data) = solution) ∧
       (r.time_omp_dynamic.isSome ↔
          vector_sum_omp_dynamic (env.omp 3) data (List.replicate data.length 0)
            (size_of_smallest_vector (env.omp 0) data) = solution) ∧
       (r.time_omp_static.isSome ↔
          vector_sum_omp_static (env.omp 4) data (List.replicate data.length 0)
            (size_of_smallest_vector (env.omp 0) data) = solution)) := by
  refine ⟨⟨if strategy_output (returns vector_sum_sequential) data
        (size_of_smallest_vector (env.omp 0) data) = solution
        then some (env.clock 1 - env.clock 0) else none,
      if strategy_output (returns (vector_sum_omp_per_vector (env.omp 1))) data
        (size_of_smallest_vector (env.omp 0) data) = solution
        then some (env.clock 3 - env.clock 2) else none,
      if strategy_output (returns (vector_sum_omp_shuffle (env.omp 2))) data
        (size_of_smallest_vector (env.omp 0) data) = solution
        then some (env.clock 5 - env.clock 4) else none,
      if strategy_output (returns (vector_sum_omp_dynamic (env.omp 3))) data
        (size_of_smallest_vector (env.omp 0) data) = solution
        then some (env.clock 7 - env.clock 6) else none,
      if strategy_output (returns (vector_sum_omp_static (env.omp 4))) data
        (size_of_smallest_vector (env.omp 0) data) = solution
        then some (env.clock 9 - env.clock 8) else none⟩, ?_, ?_, ?_⟩
  · simp only [execute_methods, execute_method_ok]
    rfl
  · simp only [execute_method_ok]
    exact ⟨trivial, trivial, trivial, trivial, trivial⟩
  · simp only [strategy_output_returns]
    refine ⟨?_, ?_, ?_, ?_, ?_⟩ <;> split <;> simp_all

theorem exact_sum_bounds (v : List int8_t) :
    -128 * (v.length : Int) ≤ exact_sum v ∧ exact_sum v ≤ 127 * (v.length : Int) := by
  induction v with
  | nil => simp [exact_sum]
  | cons x rest ih =>
    have hx1 := x.property.1
    have hx2 := x.property.2
    obtain ⟨h1, h2⟩ := ih
    have hs : exact_sum (x :: rest) = x.val + exact_sum rest := by
      simp [exact_sum, List.sum_cons]
    rw [hs, List.length_cons]
    push_cast
    constructor <;> omega

theorem toInt32_of_fits (x : Int) (h1 : -2 ^ 31 ≤ x) (h2 : x < 2 ^ 31) : toInt32 x = x := by
  unfold toInt32; omega

theorem wrapped_sum_exact (v : List int8_t) (hshort : v.length ≤ 2 ^ 24) :
    wrapped_sum v = exact_sum v := by
  obtain ⟨h1, h2⟩ := exact_sum_bounds v
  have hl : (v.length : Int) ≤ 2 ^ 24 := by exact_mod_cast hshort
  unfold wrapped_sum
  apply toInt32_of_fits <;> omega

theorem wrapped_sum_range (v : List int8_t) :
    -2 ^ 31 ≤ wrapped_sum v ∧ wrapped_sum v < 2 ^ 31 ∧
      (wrapped_sum v - exact_sum v) % 2 ^ 32 = 0 := by
  unfold wrapped_sum toInt32
  omega

/-- C20. On the empty dataset `size_of_smallest_vector` returns `SIZE_MAX`, that is
2^64 - 1, the initial value of the reduction, for every runtime; the call returns a
value (the function is total) and the value is not 0. -/
theorem size_of_smallest_vector_empty (rt : Runtime) :
    size_of_smallest_vector rt [] = SIZE_MAX ∧
    size_of_smallest_vector rt [] = 2 ^ 64 - 1 ∧
    size_of_smallest_vector rt [] ≠ 0 := by
  rw [size_of_smallest_vector_eq]
  refine ⟨rfl, rfl, ?_⟩
  decide

/-! ## The per-vector strategy and its threshold -/

theorem vector_sum_omp_per_vector_body (rt : Runtime) (data : InputVectors)
    (solution : OutputVector) (m : Nat) :
    vector_sum_omp_per_vector rt data solution m =
      omp_parallel_for data.length (rt.schedule data.length)
        (fun i sol => sol.set i (wrapped_sum (vectorAt data i))) solution := by
  unfold vector_sum_omp_per_vector
  congr 1
  funext i sol
  simp [inner_reduction_eq, accumulate_int_eq, wrapped_sum]

theorem vectorAt_mem (data : InputVectors) (i : Nat) (hi : i < data.length) :
    vectorAt data i ∈ data := by
  rw [vectorAt_eq, List.getElem?_eq_getElem hi]
  exact List.getElem_mem hi

theorem size_of_smallest_vector_le (rt : Runtime) (data : InputVectors) (v : List int8_t)
    (hv : v ∈ data) : size_of_smallest_vector rt data ≤ v.length := by
  rw [size_of_smallest_vector_eq]
  exact (foldl_min_body_spec data SIZE_MAX).2.1 v hv

/-- C19. Every strategy produces the same output for any two values of
`min_vector_size`, on every dataset and output buffer: four strategies ignore the
parameter, and the two branches of `vector_sum_omp_per_vector` (inner reduction,
`std::accumulate`) compute the same value for every vector and every team. -/
theorem strategies_ignore_min_vector_size (rt : Runtime) (data : InputVectors)
    (solution : OutputVector) (m1 m2 : Nat) :
    vector_sum_sequential data solution m1 = vector_sum_sequential data solution m2 ∧
    vector_sum_omp_per_vector rt data solution m1 =
      vector_sum_omp_per_vector rt data solution m2 ∧
    vector_sum_omp_shuffle rt data solution m1 = vector_sum_omp_shuffle rt data solution m2 ∧
    vector_sum_omp_dynamic rt data solution m1 = vector_sum_omp_dynamic rt data solution m2 ∧
    vector_sum_omp_static rt data solution m1 = vector_sum_omp_static rt data solution m2 ∧
    (∀ (team : Team) (v : List int8_t), inner_reduction team v = accumulate_int v) := by
  refine ⟨rfl, ?_, rfl, rfl, rfl, ?_⟩
  · rw [vector_sum_omp_per_vector_body, vector_sum_omp_per_vector_body]
  · intro team v
    rw [inner_reduction_eq, accumulate_int_eq]

/-- Within 2^31 vectors and with an output buffer of length `|data|`, each of the four
parallel strategies stores in slot `i` the exact sum of vector `i` wrapped to 32 bits,
a value in [-2^31, 2^31) congruent to the exact sum modulo 2^32, and the four outputs
are equal whatever the runtime decisions. -/
theorem parallel_strategies_wrap_int32_bounded (rt1 rt2 rt3 rt4 : Runtime)
    (data : InputVectors) (solution : OutputVector) (m : Nat)
    (hlen : solution.length = data.length) (hn : data.length ≤ 2 ^ 31) :
    vector_sum_omp_per_vector rt1 data solution m = data.map wrapped_sum ∧
    vector_sum_omp_shuffle rt2 data solution m = data.map wrapped_sum ∧
    vector_sum_omp_dynamic rt3 data solution m = data.map wrapped_sum ∧
    vector_sum_omp_static rt4 data solution m = data.map wrapped_sum ∧
    (∀ v : List int8_t, -2 ^ 31 ≤ wrapped_sum v ∧ wrapped_sum v < 2 ^ 31 ∧
      (wrapped_sum v - exact_sum v) % 2 ^ 32 = 0) ∧
    (∀ (team : Team) (v : List int8_t),
      inner_reduction team v = wrapped_sum v ∧ accumulate_int v = wrapped_sum v) :=
  ⟨vector_sum_omp_per_vector_eq_map rt1 data solution m hlen,
    vector_sum_omp_shuffle_eq_map rt2 data solution m hlen hn,
    vector_sum_omp_dynamic_eq_map rt3 data solution m hlen,
    vector_sum_omp_static_eq_map rt4 data solution m hlen,
    wrapped_sum_range, fun team v => ⟨inner_reduction_eq team v, accumulate_int_eq v⟩⟩

/-- C17. With `min_vector_size = size_of_smallest_vector data`, the value that
`execute_methods` passes, every vector is at least that long, so
`vector_sum_omp_per_vector` sends every vector through the inner reduction: it equals
the loop without the sequential branch. -/
theorem per_vector_always_inner (rt0 rt : Runtime) (data : InputVectors)
    (solution : OutputVector) :
    (∀ v ∈ data, v.length ≥ size_of_smallest_vector rt0 data) ∧
    (∀ i : Nat, i < data.length →
      (vectorAt data i).length ≥ size_of_smallest_vector rt0 data) ∧
    vector_sum_omp_per_vector rt data solution (size_of_smallest_vector rt0 data) =
      per_vector_inner_only rt data solution := by
  have hall : ∀ i : Nat, i < data.length →
      (vectorAt data i).length ≥ size_of_smallest_vector rt0 data :=
    fun i hi => size_of_smallest_vector_le rt0 data _ (vectorAt_mem data i hi)
  refine ⟨fun v hv => size_of_smallest_vector_le rt0 data v hv, hall, ?_⟩
  unfold vector_sum_omp_per_vector per_vector_inner_only omp_parallel_for
  apply List.foldl_ext
  intro sol i hi
  have hlt : i < data.length := List.mem_range.mp ((rt.schedule data.length).perm.mem_iff.mp hi)
  dsimp only
  rw [if_pos (hall i hlt)]

/-- Witness of C17 on vectors of lengths 2 and 1: the second vector reaches the
threshold. -/
theorem per_vector_always_inner_witness :
    (vectorAt [[int8_max, int8_max], [int8_max]] 1).length ≥
      size_of_smallest_vector Runtime.serial [[int8_max, int8_max], [int8_max]] :=
  (per_vector_always_inner Runtime.serial Runtime.serial [[int8_max, int8_max], [int8_max]]
    [0, 0]).2.1 1 (by decide)

/-- Within 2^31 vectors the loop of `vector_sum_omp_shuffle` writes every slot below
`|data|` once, and with an output buffer of length `|data|` its output equals the
output of `vector_sum_omp_static`. -/
theorem shuffle_eq_static_bounded (rt rt2 : Runtime) (data : InputVectors)
    (solution : OutputVector) (m : Nat) (hlen : solution.length = data.length)
    (hn : data.length ≤ 2 ^ 31) :
    (shuffle_targets rt data).Perm (List.range data.length) ∧
    (shuffle_targets rt data).Nodup ∧
    vector_sum_omp_shuffle rt data solution m = vector_sum_omp_static rt2 data solution m := by
  have hp : (shuffle_targets rt data).Perm (List.range data.length) := by
    have h := shuffle_targets_perm_iota rt data
    rwa [iota_int_of_small _ hn] at h
  exact ⟨hp, hp.nodup_iff.mpr (List.nodup_range _),
    (vector_sum_omp_shuffle_eq_map rt data solution m hlen hn).trans
      (vector_sum_omp_static_eq_map rt2 data solution m hlen).symm⟩

/-! ## Datasets of short vectors -/

theorem map_wrapped_sum_of_short (data : InputVectors) (hshort : ∀ v ∈ data, v.length ≤ 2 ^ 24) :
    data.map wrapped_sum = ground_truth data := by
  unfold ground_truth
  apply List.map_congr_left
  intro v hv
  exact wrapped_sum_exact v (hshort v hv)

theorem map_sum_int64_of_short (data : InputVectors) (hshort : ∀ v ∈ data, v.length ≤ 2 ^ 24) :
    data.map sum_int64 = ground_truth data := by
  unfold ground_truth
  apply List.map_congr_left
  intro v hv
  have h := hshort v hv
  exact sum_int64_exact v (by omega)

theorem map_wrapped_sum_many_short : many_short.map wrapped_sum = List.replicate 10000 127 := by
  have h : wrapped_sum [int8_max] = 127 := by decide
  rw [many_short, List.map_replicate, h]

theorem map_sum_int64_many_short : many_short.map sum_int64 = List.replicate 10000 127 := by
  have h : sum_int64 [int8_max] = 127 := by decide
  rw [many_short, List.map_replicate, h]

theorem length_many_short : (List.replicate 10000 (0 : Int)).length = many_short.length := by
  rw [many_short, List.length_replicate, List.length_replicate]

/-- Within 2^31 vectors of at most 2^24 elements each, with an output buffer of length
`|data|`, the four parallel strategies and the sequential one return the ground
truth. -/
theorem parallel_strategies_exact_bounded (rt : Runtime) (data : InputVectors)
    (solution : OutputVector) (m : Nat) (hlen : solution.length = data.length)
    (hshort : ∀ v ∈ data, v.length ≤ 2 ^ 24) (hn : data.length ≤ 2 ^ 31) :
    vector_sum_omp_per_vector rt data solution m = ground_truth data ∧
    vector_sum_omp_shuffle rt data solution m = ground_truth data ∧
    vector_sum_omp_dynamic rt data solution m = ground_truth data ∧
    vector_sum_omp_static rt data solution m = ground_truth data ∧
    vector_sum_sequential data solution m = ground_truth data := by
  have hw := map_wrapped_sum_of_short data hshort
  have hs := map_sum_int64_of_short data hshort
  refine ⟨?_, ?_, ?_, ?_, ?_⟩
  · rw [vector_sum_omp_per_vector_eq_map rt data solution m hlen, hw]
  · rw [vector_sum_omp_shuffle_eq_map rt data solution m hlen hn, hw]
  · rw [vector_sum_omp_dynamic_eq_map rt data solution m hlen, hw]
  · rw [vector_sum_omp_static_eq_map rt data solution m hlen, hw]
  · rw [vector_sum_sequential_eq_map data solution m hlen, hs]

/-- On 10000 vectors of length 1 holding 127, all five strategies return 10000 times
127. -/
theorem all_strategies_on_many_short (rt : Runtime) (m : Nat) :
    vector_sum_sequential many_short (List.replicate 10000 0) m = List.replicate 10000 127 ∧
    vector_sum_omp_per_vector rt many_short (List.replicate 10000 0) m =
      List.replicate 10000 127 ∧
    vector_sum_omp_shuffle rt many_short (List.replicate 10000 0) m =
      List.replicate 10000 127 ∧
    vector_sum_omp_dynamic rt many_short (List.replicate 10000 0) m =
      List.replicate 10000 127 ∧
    vector_sum_omp_static rt many_short (List.replicate 10000 0) m =
      List.replicate 10000 127 := by
  have hn : many_short.length ≤ 2 ^ 31 := by
    rw [many_short, List.length_replicate]
    norm_num
  refine ⟨?_, ?_, ?_, ?_, ?_⟩
  · rw [vector_sum_sequential_eq_map _ _ m length_many_short, map_sum_int64_many_short]
  · rw [vector_sum_omp_per_vector_eq_map rt _ _ m length_many_short, map_wrapped_sum_many_short]
  · rw [vector_sum_omp_shuffle_eq_map rt _ _ m length_many_short hn,
      map_wrapped_sum_many_short]
  · rw [vector_sum_omp_dynamic_eq_map rt _ _ m length_many_short, map_wrapped_sum_many_short]
  · rw [vector_sum_omp_static_eq_map rt _ _ m length_many_short, map_wrapped_sum_many_short]

/-- C13. On every dataset of three vectors of lengths 0, 1 and 5, with any element
values and any output buffer of three slots, `size_of_smallest_vector` is 0 and each
of the five strategies called with that `min_vector_size` returns
`{0, v0, v1+v2+v3+v4+v5}`, whatever the runtime decisions. -/
theorem three_vectors_scenario (rt0 rt : Runtime) (v0 v1 v2 v3 v4 v5 : int8_t)
    (s0 s1 s2 : Int) :
    size_of_smallest_vector rt0 [[], [v0], [v1, v2, v3, v4, v5]] = 0 ∧
    vector_sum_sequential [[], [v0], [v1, v2, v3, v4, v5]] [s0, s1, s2]
      (size_of_smallest_vector rt0 [[], [v0], [v1, v2, v3, v4, v5]]) =
      [0, v0.val, v1.val + v2.val + v3.val + v4.val + v5.val] ∧
    vector_sum_omp_per_vector rt [[], [v0], [v1, v2, v3, v4, v5]] [s0, s1, s2]
      (size_of_smallest_vector rt0 [[], [v0], [v1, v2, v3, v4, v5]]) =
      [0, v0.val, v1.val + v2.val + v3.val + v4.val + v5.val] ∧
    vector_sum_omp_shuffle rt [[], [v0], [v1, v2, v3, v4, v5]] [s0, s1, s2]
      (size_of_smallest_vector rt0 [[], [v0], [v1, v2, v3, v4, v5]]) =
      [0, v0.val, v1.val + v2.val + v3.val + v4.val + v5.val] ∧
    vector_sum_omp_dynamic rt [[], [v0], [v1, v2, v3, v4, v5]] [s0, s1, s2]
      (size_of_smallest_vector rt0 [[], [v0], [v1, v2, v3, v4, v5]]) =
      [0, v0.val, v1.val + v2.val + v3.val + v4.val + v5.val] ∧
    vector_sum_omp_static rt [[], [v0], [v1, v2, v3, v4, v5]] [s0, s1, s2]
      (size_of_smallest_vector rt0 [[], [v0], [v1, v2, v3, v4, v5]]) =
      [0, v0.val, v1.val + v2.val + v3.val + v4.val + v5.val] := by
  have hshort : ∀ v ∈ [[], [v0], [v1, v2, v3, v4, v5]], v.length ≤ 2 ^ 24 := by
    intro v hv
    simp only [List.mem_cons, List.mem_singleton, List.not_mem_nil, or_false] at hv
    rcases hv with rfl | rfl | rfl <;> simp
  have hgt : ground_truth [[], [v0], [v1, v2, v3, v4, v5]] =
      [0, v0.val, v1.val + v2.val + v3.val + v4.val + v5.val] := by
    simp [ground_truth, exact_sum, add_assoc]
  have hw := (map_wrapped_sum_of_short _ hshort).trans hgt
  have hs := (map_sum_int64_of_short _ hshort).trans hgt
  refine ⟨?_, ?_, ?_, ?_, ?_, ?_⟩
  · rw [size_of_smallest_vector_eq]
    rfl
  · rw [vector_sum_sequential_eq_map _ _ _ rfl, hs]
  · rw [vector_sum_omp_per_vector_eq_map rt _ _ _ rfl, hw]
  · rw [vector_sum_omp_shuffle_eq_map rt _ _ _ rfl (by simp), hw]
  · rw [vector_sum_omp_dynamic_eq_map rt _ _ _ rfl, hw]
  · rw [vector_sum_omp_static_eq_map rt _ _ _ rfl, hw]

/-! ## The shares of the inner loop -/

theorem flatMap_filter_classes {β : Type} (f : β → Nat) (ps : List β) (ks : List Nat)
    (hks : ks.Nodup) :
    (ks.flatMap (fun k => ps.filter (fun p => f p = k))).Perm
      (ps.filter (fun p => decide (f p ∈ ks))) := by
  induction ks with
  | nil => simp
  | cons k rest ih =>
    have hk : k ∉ rest := (List.nodup_cons.mp hks).1
    have hrest := ih (List.nodup_cons.mp hks).2
    rw [List.flatMap_cons]
    have hsplit := List.filter_append_perm (fun p => decide (f p = k))
      (ps.filter (fun p => decide (f p ∈ k :: rest)))
    rw [List.filter_filter, List.filter_filter] at hsplit
    have e1 : ps.filter (fun p => decide (f p = k) && decide (f p ∈ k :: rest)) =
        ps.filter (fun p => decide (f p = k)) := by
      apply List.filter_congr
      intro p _
      by_cases h : f p = k <;> simp [h]
    have e2 : ps.filter (fun p => (!decide (f p = k)) && decide (f p ∈ k :: rest)) =
        ps.filter (fun p => decide (f p ∈ rest)) := by
      apply List.filter_congr
      intro p _
      by_cases h : f p = k
      · simp [h, hk]
      · simp [h]
    rw [e1, e2] at hsplit
    exact (List.Perm.append_left _ hrest).trans hsplit

/-- The shares of the inner loop, one after the other, are a rearrangement of the
vector: every element is in exactly one share. -/
theorem inner_shares_perm (team : Team) (v : List int8_t) :
    (inner_shares team v).flatten.Perm v := by
  have hflat : (inner_shares team v).flatten =
      ((List.range team.workers).flatMap
        (fun k => v.enum.filter (fun p => p.1 / 256 % team.workers = k))).map Prod.snd := by
    unfold inner_shares share
    rw [List.map_flatMap, List.flatMap_def]
  rw [hflat]
  have hp := flatMap_filter_classes (fun p : Nat × int8_t => p.1 / 256 % team.workers) v.enum
    (List.range team.workers) (List.nodup_range _)
  have hall : v.enum.filter
      (fun p => decide (p.1 / 256 % team.workers ∈ List.range team.workers)) = v.enum := by
    apply List.filter_eq_self.mpr
    intro p _
    simp [Nat.mod_lt _ team.workers_pos]
  rw [hall] at hp
  have := hp.map Prod.snd
  rwa [List.enum_map_snd] at this

/-- C15. The inner reduction of `vector_sum_omp_per_vector` (chunks of 256 indices
dealt round-robin to the workers, private `int` accumulators started at 0 and merged
with `+` in any order) yields, for every vector, every team size and every merge
order, the value of adding the elements from left to right into one `int`
accumulator; the shares are a rearrangement of the vector, so no element is lost or
counted twice. -/
theorem inner_reduction_eq_left_to_right (team : Team) (v : List int8_t) :
    inner_reduction team v = v.foldl (fun acc x => toInt32 (acc + x.val)) 0 ∧
    inner_reduction team v = accumulate_int v ∧
    (inner_shares team v).flatten.Perm v ∧
    ((inner_shares team v).map exact_sum).sum = exact_sum v := by
  have h : inner_reduction team v = accumulate_int v := by
    rw [inner_reduction_eq, accumulate_int_eq]
  exact ⟨h, h, inner_shares_perm team v,
    by
      unfold inner_shares
      rw [List.map_map]
      exact sum_shares _ _ team.workers_pos v⟩

/-! ## The generator depends on the shape only -/

theorem fill_vector_shape {σ : Type} (dist : σ → int8_t × σ) (v1 v2 : List int8_t)
    (hl : v1.length = v2.length) (sum : Int) (gen : σ) :
    fill_vector dist v1 sum gen = fill_vector dist v2 sum gen := by
  induction v1 generalizing v2 sum gen with
  | nil =>
    cases v2 with
    | nil => rfl
    | cons y ys => simp at hl
  | cons x xs ih =>
    cases v2 with
    | nil => simp at hl
    | cons y ys =>
      have hl2 : xs.length = ys.length := by simpa using hl
      simp only [fill_vector]
      rw [ih ys hl2]

theorem shape_lengths (data1 data2 : InputVectors)
    (hshape : data1.map List.length = data2.map List.length) :
    data1.length = data2.length ∧
      ∀ i, (vectorAt data1 i).length = (vectorAt data2 i).length := by
  have hn : data1.length = data2.length := by
    have := congrArg List.length hshape
    simpa using this
  refine ⟨hn, fun i => ?_⟩
  have hi := congrArg (fun l => l[i]?) hshape
  simp only [List.getElem?_map] at hi
  rw [vectorAt_eq, vectorAt_eq]
  cases h1 : data1[i]? <;> cases h2 : data2[i]? <;> simp_all

theorem generate_loop_shape {σ : Type} (dist : σ → int8_t × σ) (seed : σ)
    (sol1 sol2 : OutputVector) (data1 data2 : InputVectors)
    (hs1 : sol1.length = data1.length) (hs2 : sol2.length = data2.length)
    (hshape : data1.map List.length = data2.map List.length) (k : Nat)
    (hk : k ≤ data1.length) :
    ((List.range k).foldl (generate_step dist) (sol1, data1, seed)).2.2 =
      ((List.range k).foldl (generate_step dist) (sol2, data2, seed)).2.2 ∧
    ((List.range k).foldl (generate_step dist) (sol1, data1, seed)).1.length = data1.length ∧
    ((List.range k).foldl (generate_step dist) (sol2, data2, seed)).1.length = data1.length ∧
    ((List.range k).foldl (generate_step dist) (sol1, data1, seed)).2.1.length = data1.length ∧
    ((List.range k).foldl (generate_step dist) (sol2, data2, seed)).2.1.length = data1.length ∧
    (∀ i : Nat, i < k →
      ((List.range k).foldl (generate_step dist) (sol1, data1, seed)).1[i]? =
        ((List.range k).foldl (generate_step dist) (sol2, data2, seed)).1[i]? ∧
      ((List.range k).foldl (generate_step dist) (sol1, data1, seed)).2.1[i]? =
        ((List.range k).foldl (generate_step dist) (sol2, data2, seed)).2.1[i]?) ∧
    (∀ i : Nat, k ≤ i →
      ((List.range k).foldl (generate_step dist) (sol1, data1, seed)).2.1[i]? = data1[i]? ∧
      ((List.range k).foldl (generate_step dist) (sol2, data2, seed)).2.1[i]? = data2[i]?) := by
  obtain ⟨hn, hv⟩ := shape_lengths data1 data2 hshape
  induction k with
  | zero =>
    refine ⟨rfl, hs1, by simpa [hn] using hs2, rfl, by simp [hn], ?_, ?_⟩
    · intro i hi; omega
    · intro i _; exact ⟨rfl, rfl⟩
  | succ k ih =>
    obtain ⟨g, a1, a2, b1, b2, hlow, hhigh⟩ := ih (by omega)
    rw [List.range_succ, List.foldl_append, List.foldl_cons, List.foldl_nil,
      List.foldl_append, List.foldl_cons, List.foldl_nil]
    generalize (List.range k).foldl (generate_step dist) (sol1, data1, seed) = st1
      at g a1 b1 hlow hhigh
    generalize (List.range k).foldl (generate_step dist) (sol2, data2, seed) = st2
      at g a2 b2 hlow hhigh
    have hvec1 : vectorAt st1.2.1 k = vectorAt data1 k := by
      rw [vectorAt_eq, vectorAt_eq, (hhigh k (Nat.le_refl _)).1]
    have hvec2 : vectorAt st2.2.1 k = vectorAt data2 k := by
      rw [vectorAt_eq, vectorAt_eq, (hhigh k (Nat.le_refl _)).2]
    have hfill : fill_vector dist (vectorAt st1.2.1 k) 0 st1.2.2 =
        fill_vector dist (vectorAt st2.2.1 k) 0 st2.2.2 := by
      rw [g]
      exact fill_vector_shape dist _ _ (by rw [hvec1, hvec2, hv k]) 0 st2.2.2
    simp only [generate_step]
    rw [hfill]
    refine ⟨rfl, by simp [a1], by simp [a2], by simp [b1], by simp [b2], ?_, ?_⟩
    · intro i hi
      by_cases hik : i = k
      · subst hik
        rw [List.getElem?_set_self (by omega), List.getElem?_set_self (by omega),
          List.getElem?_set_self (by omega), List.getElem?_set_self (by omega)]
        exact ⟨rfl, rfl⟩
      · have hne : k ≠ i := fun h => hik h.symm
        rw [List.getElem?_set_ne hne, List.getElem?_set_ne hne, List.getElem?_set_ne hne,
          List.getElem?_set_ne hne]
        exact hlow i (by omega)
    · intro i hi
      have hne : k ≠ i := by omega
      rw [List.getElem?_set_ne hne, List.getElem?_set_ne hne]
      exact hhigh i (by omega)

theorem ext_of_prefix_eq {α : Type} (l1 l2 : List α) (n : Nat) (h1 : l1.length = n)
    (h2 : l2.length = n) (h : ∀ i : Nat, i < n → l1[i]? = l2[i]?) : l1 = l2 := by
  apply List.ext_getElem?
  intro i
  by_cases hi : i < n
  · exact h i hi
  · rw [List.getElem?_eq_none (by omega), List.getElem?_eq_none (by omega)]

/-- C12. `generate_data` is deterministic in the shape of the dataset: for two datasets
with the same number of vectors and the same length for each vector, and solution
buffers of matching size, whatever the prior contents, the two calls (same
distribution, same fixed seed) return the same outcome, the same filled dataset and
the same ground truth. -/
theorem generate_data_shape_deterministic {σ : Type} (dist : σ → int8_t × σ) (seed : σ)
    (sol1 sol2 : OutputVector) (data1 data2 : InputVectors)
    (hs1 : sol1.length = data1.length) (hs2 : sol2.length = data2.length)
    (hshape : data1.map List.length = data2.map List.length) :
    generate_data dist seed sol1 data1 = generate_data dist seed sol2 data2 := by
  obtain ⟨hn, _⟩ := shape_lengths data1 data2 hshape
  rw [generate_data_ok dist seed sol1 data1 hs1, generate_data_ok dist seed sol2 data2 hs2,
    ← hn]
  obtain ⟨_, a1, a2, b1, b2, hlow, _⟩ :=
    generate_loop_shape dist seed sol1 sol2 data1 data2 hs1 hs2 hshape data1.length
      (Nat.le_refl _)
  generalize (List.range data1.length).foldl (generate_step dist) (sol1, data1, seed) = st1
    at a1 b1 hlow
  generalize (List.range data1.length).foldl (generate_step dist) (sol2, data2, seed) = st2
    at a2 b2 hlow
  have e1 : st1.1 = st2.1 := ext_of_prefix_eq _ _ _ a1 a2 (fun i hi => (hlow i hi).1)
  have e2 : st1.2.1 = st2.2.1 := ext_of_prefix_eq _ _ _ b1 b2 (fun i hi => (hlow i hi).2)
  rw [e1, e2]

/-- Witness of C12: two datasets of shape (1, 2) with different prior contents. -/
theorem generate_data_shape_deterministic_witness :
    generate_data (fun g : Nat => ((⟨127 - (g % 2 : Nat), by omega⟩ : int8_t), g + 1)) 0 [1, 2]
      [[int8_max], [int8_max, int8_max]] =
    generate_data (fun g : Nat => ((⟨127 - (g % 2 : Nat), by omega⟩ : int8_t), g + 1)) 0 [3, 4]
      [[⟨0, by decide⟩], [⟨-1, by decide⟩, ⟨5, by decide⟩]] :=
  generate_data_shape_deterministic
    (fun g : Nat => ((⟨127 - (g % 2 : Nat), by omega⟩ : int8_t), g + 1)) 0 [1, 2] [3, 4]
    [[int8_max], [int8_max, int8_max]] [[⟨0, by decide⟩], [⟨-1, by decide⟩, ⟨5, by decide⟩]]
    (by decide) (by decide) (by decide)

/-! ## Vector sizes -/

theorem round_half_away_intCast (n : Int) : round_half_away (n : ℚ) = n := by
  unfold round_half_away
  split
  · rw [Int.floor_eq_iff]
    constructor <;> norm_num
  · rw [Int.ceil_eq_iff]
    constructor <;> norm_num

theorem to_size_t_intCast (n : Int) :
    to_size_t (float.finite (n : ℚ)) =
      if 0 ≤ n ∧ n ≤ (SIZE_MAX : Int) then some n.toNat else none := by
  unfold to_size_t
  have ht : (if 0 ≤ (n : ℚ) then ⌊(n : ℚ)⌋ else ⌈(n : ℚ)⌉) = n := by
    split
    · exact Int.floor_intCast n
    · exact Int.ceil_intCast n
  simp only [ht]

theorem stored_size_finite (q : ℚ) :
    stored_size (float.finite q) =
      to_size_t (float.finite ((max (round_half_away q) 1 : Int) : ℚ)) := by
  unfold stored_size std_round std_max float_lt
  by_cases h : round_half_away q < 1
  · have hq : ((round_half_away q : Int) : ℚ) < 1 := by exact_mod_cast h
    have hmax : max (round_half_away q) 1 = 1 := max_eq_right (le_of_lt h)
    simp [hq, hmax]
  · have hq : ¬ ((round_half_away q : Int) : ℚ) < 1 := by
      intro hlt
      exact h (by exact_mod_cast hlt)
    have hmax : max (round_half_away q) 1 = round_half_away q := max_eq_left (not_lt.mp h)
    simp [hq, hmax]

theorem stored_size_of_fits (q : ℚ) (h : round_half_away q ≤ (SIZE_MAX : Int)) :
    stored_size (float.finite q) = some (max (round_half_away q) 1).toNat := by
  rw [stored_size_finite, to_size_t_intCast]
  have h1 : (0 : Int) ≤ max (round_half_away q) 1 := le_trans (by decide) (le_max_right _ _)
  have h2 : max (round_half_away q) 1 ≤ (SIZE_MAX : Int) :=
    max_le h (by unfold SIZE_MAX; norm_num)
  rw [if_pos ⟨h1, h2⟩]

theorem stored_size_of_overflow (q : ℚ) (h : (SIZE_MAX : Int) < round_half_away q) :
    stored_size (float.finite q) = none := by
  rw [stored_size_finite, to_size_t_intCast]
  have h2 : ¬ max (round_half_away q) 1 ≤ (SIZE_MAX : Int) := by
    intro hle
    exact absurd (le_trans (le_max_left _ _) hle) (not_le.mpr h)
  rw [if_neg (fun hc => h2 hc.2)]

theorem fill_sizes_spec {σ : Type} (d : σ → float × σ)
    (hd : ∀ g, ∃ q, (d g).1 = float.finite q ∧ round_half_away q ≤ (SIZE_MAX : Int))
    (range : List Nat) (gen : σ) :
    ∃ sizes, fill_sizes d range gen = some sizes ∧ sizes.length = range.length ∧
      ∀ s ∈ sizes, 1 ≤ s ∧
        ∃ g q, (d g).1 = float.finite q ∧ (s : Int) = max (round_half_away q) 1 := by
  induction range generalizing gen with
  | nil => exact ⟨[], rfl, rfl, fun s hs => absurd hs (List.not_mem_nil s)⟩
  | cons x rest ih =>
    obtain ⟨q, hq, hfit⟩ := hd gen
    obtain ⟨sizes, hs, hl, hall⟩ := ih (d gen).2
    have hstore := stored_size_of_fits q hfit
    have hpos : (1 : Int) ≤ max (round_half_away q) 1 := le_max_right _ _
    refine ⟨(max (round_half_away q) 1).toNat :: sizes, ?_, by simp [hl], ?_⟩
    · simp only [fill_sizes, hq, hstore, hs, Option.map_some']
    · intro s hmem
      rcases List.mem_cons.mp hmem with rfl | hmem
      · refine ⟨by omega, gen, q, hq, ?_⟩
        rw [Int.toNat_of_nonneg (by omega)]
      · exact hall s hmem

/-- C11 as stated fails: a draw equal to 2^64 (a `float` value, reached with
`mean = 2^64`) rounds to 2^64, which is not a `size_t` value, so the conversion is
undefined and no size of at least 1 is stored. -/
theorem generate_vector_sizes_huge_draw :
    generate_vector_sizes (fun mean _ (g : Unit) => (mean, g)) () [0]
        (float.finite ((18446744073709551616 : Int) : ℚ)) (float.finite 1) = none ∧
    ¬ ∃ sizes, generate_vector_sizes (fun mean _ (g : Unit) => (mean, g)) () [0]
        (float.finite ((18446744073709551616 : Int) : ℚ)) (float.finite 1) = some sizes ∧
        ∀ s ∈ sizes, 1 ≤ s := by
  have hnone : generate_vector_sizes (fun mean _ (g : Unit) => (mean, g)) () [0]
      (float.finite ((18446744073709551616 : Int) : ℚ)) (float.finite 1) = none := by
    have h := stored_size_of_overflow ((18446744073709551616 : Int) : ℚ)
      (by rw [round_half_away_intCast]; decide)
    simp only [generate_vector_sizes, fill_sizes, h]
  refine ⟨hnone, ?_⟩
  rintro ⟨sizes, hs, _⟩
  rw [hnone] at hs
  cases hs

/-- C11, amended. For every mean and sigma, negative means included, if every drawn
value is finite and rounds to at most `SIZE_MAX`, then `generate_vector_sizes` gives
every position of the range a size: each is at least 1 and equals
`max(round(draw), 1)` for a drawn value. A finite draw stores that maximum, and a
draw rounding to 0 or to a negative number stores exactly 1. -/
theorem generate_vector_sizes_at_least_one {σ : Type}
    (normal_distribution : float → float → σ → float × σ) (seed : σ) (range : List Nat)
    (mean sigma : float)
    (hdraw : ∀ g, ∃ q, (normal_distribution mean sigma g).1 = float.finite q ∧
      round_half_away q ≤ (SIZE_MAX : Int)) :
    (∃ sizes, generate_vector_sizes normal_distribution seed range mean sigma = some sizes ∧
      sizes.length = range.length ∧
      ∀ s ∈ sizes, 1 ≤ s ∧
        ∃ g q, (normal_distribution mean sigma g).1 = float.finite q ∧
          (s : Int) = max (round_half_away q) 1) ∧
    (∀ q : ℚ, round_half_away q ≤ (SIZE_MAX : Int) →
      stored_size (float.finite q) = some (max (round_half_away q) 1).toNat) ∧
    (∀ q : ℚ, round_half_away q ≤ 0 → stored_size (float.finite q) = some 1) := by
  refine ⟨fill_sizes_spec (normal_distribution mean sigma) hdraw range seed,
    stored_size_of_fits, ?_⟩
  intro q hq
  rw [stored_size_of_fits q (le_trans hq (by unfold SIZE_MAX; norm_num)),
    max_eq_right (le_trans hq (by decide))]
  rfl

/-- Witness of C11, amended: mean -7/2, every draw equal to the mean, three positions. -/
theorem generate_vector_sizes_at_least_one_witness :
    ∃ sizes, generate_vector_sizes (fun mean _ (g : Unit) => (mean, g)) () [0, 0, 0]
        (float.finite (-7 / 2)) (float.finite 1) = some sizes ∧
      sizes.length = [0, 0, 0].length ∧
      ∀ s ∈ sizes, 1 ≤ s ∧
        ∃ g q, ((fun mean _ (g : Unit) => (mean, g)) (float.finite (-7 / 2)) (float.finite 1)
            g : float × Unit).1 = float.finite q ∧
          (s : Int) = max (round_half_away q) 1 :=
  (generate_vector_sizes_at_least_one (fun mean _ (g : Unit) => (mean, g)) () [0, 0, 0]
    (float.finite (-7 / 2)) (float.finite 1)
    (fun _ => ⟨-7 / 2, rfl, by unfold round_half_away SIZE_MAX; norm_num [Int.ceil_le]⟩)).1

/-! ## More than 2^31 vectors: the `int` counter of `std::iota`

On `many_vectors` (2^31 + 1 vectors) the counter of `std::iota` wraps after 2^31
increments, so the last entry of `indices` is 2^64 - 2^31 and no entry is 2^31. -/

theorem length_many_vectors : many_vectors.length = 2147483649 :=
  List.length_replicate _ _

theorem length_zeros_many_vectors :
    (List.replicate 2147483649 (0 : Int)).length = many_vectors.length := by
  rw [length_many_vectors, List.length_replicate]

theorem getElem?_many_vectors : many_vectors[2147483648]? = some [int8_max] := by
  rw [many_vectors, List.getElem?_replicate, if_pos (by norm_num)]

theorem vectorAt_many_vectors : vectorAt many_vectors 2147483648 = [int8_max] := by
  rw [vectorAt_eq, getElem?_many_vectors]
  rfl

theorem wrapped_sum_int8_max : wrapped_sum [int8_max] = 127 := by decide

theorem not_mem_iota_many_vectors : 2147483648 ∉ iota_int many_vectors.length 0 := by
  rw [length_many_vectors, mem_iota_int]
  rintro ⟨k, hk, h⟩
  unfold size_t_of_int toInt32 at h
  omega

theorem mem_iota_many_vectors : 18446744071562067968 ∈ iota_int many_vectors.length 0 := by
  rw [length_many_vectors, mem_iota_int]
  refine ⟨2147483648, by norm_num, ?_⟩
  unfold size_t_of_int toInt32
  omega

/-- The shuffled strategy leaves slot 2^31 of the zeroed buffer untouched. -/
theorem shuffle_slot_many_vectors (rt : Runtime) (m : Nat) :
    (vector_sum_omp_shuffle rt many_vectors (List.replicate 2147483649 0) m)[2147483648]? =
      some 0 := by
  rw [vector_sum_omp_shuffle_getElem?, if_neg (fun h => not_mem_iota_many_vectors h.1),
    List.getElem?_replicate, if_pos (by norm_num)]

theorem map_wrapped_sum_slot_many_vectors :
    (many_vectors.map wrapped_sum)[2147483648]? = some 127 := by
  rw [List.getElem?_map, getElem?_many_vectors, Option.map_some', wrapped_sum_int8_max]

theorem short_many_vectors : ∀ v ∈ many_vectors, v.length ≤ 2 ^ 24 := by
  intro v hv
  rw [List.eq_of_mem_replicate hv]
  decide

/-- C14 fails on the code. On 2^31 + 1 vectors of length 1 holding 127 (every vector
has at most 2^24 elements), with the zeroed output buffer, the ground truth and the
sequential, per-vector, dynamic and static strategies have 127 in slot 2^31, while
`vector_sum_omp_shuffle` leaves 0 there, for every runtime decision and every
`min_vector_size`: its output is not the ground truth. -/
theorem shuffle_not_exact_on_many_vectors (rt : Runtime) (m : Nat) :
    (∀ v ∈ many_vectors, v.length ≤ 2 ^ 24) ∧
    (ground_truth many_vectors)[2147483648]? = some 127 ∧
    (vector_sum_sequential many_vectors (List.replicate 2147483649 0) m)[2147483648]? =
      some 127 ∧
    (vector_sum_omp_per_vector rt many_vectors (List.replicate 2147483649 0) m)[2147483648]? =
      some 127 ∧
    (vector_sum_omp_dynamic rt many_vectors (List.replicate 2147483649 0) m)[2147483648]? =
      some 127 ∧
    (vector_sum_omp_static rt many_vectors (List.replicate 2147483649 0) m)[2147483648]? =
      some 127 ∧
    (vector_sum_omp_shuffle rt many_vectors (List.replicate 2147483649 0) m)[2147483648]? =
      some 0 ∧
    vector_sum_omp_shuffle rt many_vectors (List.replicate 2147483649 0) m ≠
      ground_truth many_vectors := by
  have hgt : ground_truth many_vectors = many_vectors.map wrapped_sum :=
    (map_wrapped_sum_of_short many_vectors short_many_vectors).symm
  have hseq : vector_sum_sequential many_vectors (List.replicate 2147483649 0) m =
      many_vectors.map wrapped_sum := by
    rw [vector_sum_sequential_eq_map _ _ m length_zeros_many_vectors,
      map_sum_int64_of_short many_vectors short_many_vectors, hgt]
  refine ⟨short_many_vectors, ?_, ?_, ?_, ?_, ?_, shuffle_slot_many_vectors rt m, ?_⟩
  · rw [hgt]; exact map_wrapped_sum_slot_many_vectors
  · rw [hseq]; exact map_wrapped_sum_slot_many_vectors
  · rw [vector_sum_omp_per_vector_eq_map rt _ _ m length_zeros_many_vectors]
    exact map_wrapped_sum_slot_many_vectors
  · rw [vector_sum_omp_dynamic_eq_map rt _ _ m length_zeros_many_vectors]
    exact map_wrapped_sum_slot_many_vectors
  · rw [vector_sum_omp_static_eq_map rt _ _ m length_zeros_many_vectors]
    exact map_wrapped_sum_slot_many_vectors
  · intro heq
    have h1 := shuffle_slot_many_vectors rt m
    rw [heq, hgt, map_wrapped_sum_slot_many_vectors] at h1
    exact absurd h1 (by decide)

/-- C16 fails on the code. On 2^31 + 1 vectors the loop of `vector_sum_omp_shuffle`
never writes slot 2^31, although 2^31 is below `|data|`, and it uses the index
2^64 - 2^31, which is past the end: the slots written are not a permutation of
`0..|data|-1`, and on the zeroed buffer the output differs from the output of
`vector_sum_omp_static`, for every shuffled permutation and schedule. -/
theorem shuffle_skips_slot_on_many_vectors (rt rt2 : Runtime) (m : Nat) :
    2147483648 < many_vectors.length ∧
    2147483648 ∉ shuffle_targets rt many_vectors ∧
    18446744071562067968 ∈ shuffle_targets rt many_vectors ∧
    ¬ (shuffle_targets rt many_vectors).Perm (List.range many_vectors.length) ∧
    vector_sum_omp_shuffle rt many_vectors (List.replicate 2147483649 0) m ≠
      vector_sum_omp_static rt2 many_vectors (List.replicate 2147483649 0) m := by
  have hlt : 2147483648 < many_vectors.length := by
    rw [length_many_vectors]
    norm_num
  have hnot : 2147483648 ∉ shuffle_targets rt many_vectors := fun h =>
    not_mem_iota_many_vectors ((shuffle_targets_perm_iota rt many_vectors).mem_iff.mp h)
  refine ⟨hlt, hnot, (shuffle_targets_perm_iota rt many_vectors).mem_iff.mpr
    mem_iota_many_vectors, ?_, ?_⟩
  · intro hp
    exact hnot (hp.mem_iff.mpr (List.mem_range.mpr hlt))
  · intro heq
    have h1 := shuffle_slot_many_vectors rt m
    rw [heq, vector_sum_omp_static_eq_map rt2 _ _ m length_zeros_many_vectors,
      map_wrapped_sum_slot_many_vectors] at h1
    exact absurd h1 (by decide)

/-- C18 fails on the code. On 2^31 + 1 vectors of length 1 holding 127, with the zeroed
output buffer, the sum of vector 2^31 wrapped to 32 bits is 127 and the per-vector,
dynamic and static strategies store it in slot 2^31, while `vector_sum_omp_shuffle`
leaves 0 there: the four parallel strategies do not agree, whatever the runtime
decisions. -/
theorem shuffle_disagrees_on_many_vectors (rt1 rt2 rt3 rt4 : Runtime) (m : Nat) :
    wrapped_sum (vectorAt many_vectors 2147483648) = 127 ∧
    (vector_sum_omp_per_vector rt1 many_vectors (List.replicate 2147483649 0) m)[2147483648]? =
      some 127 ∧
    (vector_sum_omp_dynamic rt3 many_vectors (List.replicate 2147483649 0) m)[2147483648]? =
      some 127 ∧
    (vector_sum_omp_static rt4 many_vectors (List.replicate 2147483649 0) m)[2147483648]? =
      some 127 ∧
    (vector_sum_omp_shuffle rt2 many_vectors (List.replicate 2147483649 0) m)[2147483648]? =
      some 0 ∧
    vector_sum_omp_shuffle rt2 many_vectors (List.replicate 2147483649 0) m ≠
      vector_sum_omp_per_vector rt1 many_vectors (List.replicate 2147483649 0) m := by
  refine ⟨by rw [vectorAt_many_vectors, wrapped_sum_int8_max], ?_, ?_, ?_,
    shuffle_slot_many_vectors rt2 m, ?_⟩
  · rw [vector_sum_omp_per_vector_eq_map rt1 _ _ m length_zeros_many_vectors]
    exact map_wrapped_sum_slot_many_vectors
  · rw [vector_sum_omp_dynamic_eq_map rt3 _ _ m length_zeros_many_vectors]
    exact map_wrapped_sum_slot_many_vectors
  · rw [vector_sum_omp_static_eq_map rt4 _ _ m length_zeros_many_vectors]
    exact map_wrapped_sum_slot_many_vectors
  · intro heq
    have h1 := shuffle_slot_many_vectors rt2 m
    rw [heq, vector_sum_omp_per_vector_eq_map rt1 _ _ m length_zeros_many_vectors,
      map_wrapped_sum_slot_many_vectors] at h1
    exact absurd h1 (by decide)

end VectorSum
